import Mathlib

/-!
Verification development for a device-management application whose core
consists of a local data repository, an outbound-SMS audit classifier
(`logSMSOperation`), a backup serializer (`createBackup`) and a
fault-tolerant restore engine (`restoreFromBackup`), plus a thin
synchronization layer (`refreshStore`).

Strings are embedded as `List Char`.  JavaScript's built-in JSON support
(`JSON.parse` / `JSON.stringify`) is an external platform dependency of the
source; it is embedded here by an executable JSON value type `JVal` with a
recursive-descent parser and serializer.  One documented simplification:
JSON numbers are modelled as integers (a value with a fractional part or an
exponent fails to parse); every concrete input used below avoids
non-integer numbers.
-/

set_option maxRecDepth 4000

/-- Character list of a Lean string literal. -/
def strL (s : String) : List Char := s.data

/-- JavaScript `\s` / `String.prototype.trim` whitespace (common subset). -/
def isJsWS (c : Char) : Bool :=
  c = ' ' || c = '\t' || c = '\n' || c = '\r' || c = '\x0b' || c = '\x0c'

/-- JSON interelement whitespace (the four characters of the JSON grammar). -/
def isJsonWS (c : Char) : Bool :=
  c = ' ' || c = '\t' || c = '\n' || c = '\r'

/-- `String.prototype.trim`: strip whitespace from both ends. -/
def jsTrim (l : List Char) : List Char :=
  ((l.dropWhile isJsWS).reverse.dropWhile isJsWS).reverse

/-- First index at which `pat` occurs in `s` (JS `String.prototype.indexOf`). -/
def indexOfSub (s pat : List Char) : Option Nat :=
  if pat.isPrefixOf s then some 0
  else
    match s with
    | [] => none
    | _ :: r => (indexOfSub r pat).map (· + 1)

/-- Last index at which `pat` occurs in `s` (JS `String.prototype.lastIndexOf`). -/
def lastIndexOfSub (s pat : List Char) : Option Nat :=
  ((List.range (s.length + 1)).filterMap
    (fun i => if pat.isPrefixOf (s.drop i) then some i else none)).getLast?

/-- JS `String.prototype.includes`. -/
def containsSub (s pat : List Char) : Bool :=
  (indexOfSub s pat).isSome

/-- Decimal digits of a natural number, most significant first.  The fuel
only bounds the recursion so that the definition reduces definitionally;
`n + 1` always suffices. -/
def natToCharsCore : Nat → Nat → List Char
  | 0, _ => []
  | fuel + 1, n =>
    if n < 10 then [Char.ofNat ('0'.toNat + n)]
    else natToCharsCore fuel (n / 10) ++ [Char.ofNat ('0'.toNat + n % 10)]

/-- Decimal digits of a natural number (for array indices and numbers). -/
def natToChars (n : Nat) : List Char := natToCharsCore (n + 1) n

/-- Decimal representation of an integer. -/
def intToChars (n : Int) : List Char :=
  if n < 0 then '-' :: natToChars n.natAbs else natToChars n.natAbs

/-- JSON values as produced by the platform JSON parser.  Numbers are
modelled as integers (documented simplification). -/
inductive JVal where
  | null : JVal
  | bool : Bool → JVal
  | num : Int → JVal
  | str : List Char → JVal
  | arr : List JVal → JVal
  | obj : List (List Char × JVal) → JVal

instance : Nonempty JVal := ⟨JVal.null⟩

/-- Test for the JSON `null` value (JS `value === null`). -/
def isNullJ : JVal → Bool
  | .null => true
  | _ => false

/-- Test for a JSON string (JS `typeof value === 'string'`). -/
def isStrJ : JVal → Bool
  | .str _ => true
  | _ => false

/-- Test for a JSON array (JS `Array.isArray`). -/
def isArrJ : JVal → Bool
  | .arr _ => true
  | _ => false

/-- JS `typeof value === 'object'`: objects, arrays and `null`. -/
def isObjTypeJ : JVal → Bool
  | .obj _ => true
  | .arr _ => true
  | .null => true
  | _ => false

/-- JS truthiness of a JSON value. -/
def truthyJ : JVal → Bool
  | .null => false
  | .bool b => b
  | .num n => n ≠ 0
  | .str s => !s.isEmpty
  | .arr _ => true
  | .obj _ => true

/-- Value of `key` in an association list of object members. -/
def lookupKV : List (List Char × JVal) → List Char → Option JVal
  | [], _ => none
  | (k, v) :: rest, key => if k = key then some v else lookupKV rest key

/-- JS object property assignment `o[k] = v`: replace an existing member in
place, else append. -/
def objInsert (ms : List (List Char × JVal)) (k : List Char) (v : JVal) :
    List (List Char × JVal) :=
  if ms.any (fun kv => kv.1 = k) then
    ms.map (fun kv => if kv.1 = k then (k, v) else kv)
  else ms ++ [(k, v)]

/-- Hexadecimal digit character for a value below 16. -/
def hexDigit (n : Nat) : Char :=
  if n < 10 then Char.ofNat ('0'.toNat + n) else Char.ofNat ('a'.toNat + n - 10)

/-- JSON string escaping of one character, as performed by `JSON.stringify`. -/
def escChar (c : Char) : List Char :=
  if c = '"' then ['\\', '"']
  else if c = '\\' then ['\\', '\\']
  else if c = '\n' then ['\\', 'n']
  else if c = '\t' then ['\\', 't']
  else if c = '\r' then ['\\', 'r']
  else if c = '\x08' then ['\\', 'b']
  else if c = '\x0c' then ['\\', 'f']
  else if c.toNat < 0x20 then
    ['\\', 'u', '0', '0', hexDigit (c.toNat / 16), hexDigit (c.toNat % 16)]
  else [c]

/-- JSON string literal for a character list (quotes plus escaping). -/
def escStr (s : List Char) : List Char :=
  '"' :: s.foldr (fun c acc => escChar c ++ acc) ['"']

mutual

/-- `JSON.stringify` on the JSON value model (no indentation, as called by
the source). -/
def jsStringifyVal : JVal → List Char
  | .null => strL "null"
  | .bool true => strL "true"
  | .bool false => strL "false"
  | .num n => intToChars n
  | .str s => escStr s
  | .arr es => '[' :: (stringifyElems es ++ [']'])
  | .obj ms => '{' :: (stringifyMems ms ++ ['}'])

/-- Comma-separated serialization of array elements. -/
def stringifyElems : List JVal → List Char
  | [] => []
  | [e] => jsStringifyVal e
  | e :: es => jsStringifyVal e ++ ',' :: stringifyElems es

/-- Comma-separated serialization of object members. -/
def stringifyMems : List (List Char × JVal) → List Char
  | [] => []
  | [(k, v)] => escStr k ++ ':' :: jsStringifyVal v
  | (k, v) :: ms => escStr k ++ ':' :: jsStringifyVal v ++ ',' :: stringifyMems ms

end

/-- Unescape a JSON string escape character (the single-character escapes). -/
def unescChar (c : Char) : Option Char :=
  if c = '"' then some '"'
  else if c = '\\' then some '\\'
  else if c = '/' then some '/'
  else if c = 'n' then some '\n'
  else if c = 't' then some '\t'
  else if c = 'r' then some '\r'
  else if c = 'b' then some '\x08'
  else if c = 'f' then some '\x0c'
  else none

/-- Value of a hexadecimal digit character. -/
def hexVal (c : Char) : Option Nat :=
  if '0' ≤ c ∧ c ≤ '9' then some (c.toNat - '0'.toNat)
  else if 'a' ≤ c ∧ c ≤ 'f' then some (c.toNat - 'a'.toNat + 10)
  else if 'A' ≤ c ∧ c ≤ 'F' then some (c.toNat - 'A'.toNat + 10)
  else none

/-- Parse the remainder of a JSON string literal (after the opening quote),
returning the decoded characters and the input after the closing quote.
The fuel only bounds the recursion (one unit per decoded character); every
call below supplies the input length plus one, which always suffices. -/
def parseStrRest : Nat → List Char → Option (List Char × List Char)
  | 0, _ => none
  | _ + 1, [] => none
  | fuel + 1, c :: r =>
    if c = '"' then some ([], r)
    else if c = '\\' then
      match r with
      | 'u' :: h1 :: h2 :: h3 :: h4 :: r2 =>
        match hexVal h1, hexVal h2, hexVal h3, hexVal h4 with
        | some a, some b, some c2, some d =>
          let n := ((a * 16 + b) * 16 + c2) * 16 + d
          if n < 0xd800 then
            (parseStrRest fuel r2).map (fun p => (Char.ofNat n :: p.1, p.2))
          else none
        | _, _, _, _ => none
      | e :: r2 =>
        match unescChar e with
        | some d => (parseStrRest fuel r2).map (fun p => (d :: p.1, p.2))
        | none => none
      | [] => none
    else if c.toNat < 0x20 then none
    else (parseStrRest fuel r).map (fun p => (c :: p.1, p.2))

/-- Digits-to-value accumulator for number parsing. -/
def digitsToNat (l : List Char) : Nat :=
  l.foldl (fun acc c => acc * 10 + (c.toNat - '0'.toNat)) 0

/-- Parse the unsigned part of a JSON number: `0` not followed by a digit,
or a nonzero-leading digit run taken maximally. -/
def parseNumCore : List Char → Option (Nat × List Char)
  | [] => none
  | c :: r =>
    if c = '0' then
      match r with
      | d :: _ => if d.isDigit then none else some (0, r)
      | [] => some (0, [])
    else if c.isDigit then
      some (digitsToNat ((c :: r).takeWhile Char.isDigit),
            (c :: r).dropWhile Char.isDigit)
    else none

/-- Parse a JSON number.  Grammar `-?(0|[1-9][0-9]*)`; a following `.`, `e`
or `E` (a non-integer number) makes the parse fail — the documented
integer-only simplification of the platform parser. -/
def parseNumber (l : List Char) : Option (Int × List Char) :=
  let signed : Option (Int × List Char) :=
    if l.headI = '-' then (parseNumCore l.tail).map (fun p => (-(p.1 : Int), p.2))
    else (parseNumCore l).map (fun p => ((p.1 : Int), p.2))
  signed.bind (fun p =>
    if p.2.headI = '.' ∨ p.2.headI = 'e' ∨ p.2.headI = 'E' then none
    else some p)

mutual

/-- Fuel-indexed recursive-descent JSON value parser (leading whitespace
allowed), returning the value and the unconsumed input. -/
def parseValue : Nat → List Char → Option (JVal × List Char)
  | 0, _ => none
  | fuel + 1, l =>
    match l.dropWhile isJsonWS with
    | [] => none
    | c :: r =>
      if c = '{' then
        match r.dropWhile isJsonWS with
        | '}' :: r2 => some (.obj [], r2)
        | r1 => parseMembers fuel r1 []
      else if c = '[' then
        match r.dropWhile isJsonWS with
        | ']' :: r2 => some (.arr [], r2)
        | r1 => parseElems fuel r1 []
      else if c = '"' then
        (parseStrRest (r.length + 1) r).map (fun p => (.str p.1, p.2))
      else if c = 't' then
        match r with
        | 'r' :: 'u' :: 'e' :: r2 => some (.bool true, r2)
        | _ => none
      else if c = 'f' then
        match r with
        | 'a' :: 'l' :: 's' :: 'e' :: r2 => some (.bool false, r2)
        | _ => none
      else if c = 'n' then
        match r with
        | 'u' :: 'l' :: 'l' :: r2 => some (.null, r2)
        | _ => none
      else
        (parseNumber (c :: r)).map (fun p => (.num p.1, p.2))

/-- Parse the members of a JSON object (positioned at a key), accumulating
with JS assignment semantics (duplicate keys: last wins, first position). -/
def parseMembers : Nat → List Char → List (List Char × JVal) →
    Option (JVal × List Char)
  | 0, _, _ => none
  | fuel + 1, l, acc =>
    match l with
    | '"' :: r =>
      match parseStrRest (r.length + 1) r with
      | none => none
      | some (k, r2) =>
        match r2.dropWhile isJsonWS with
        | ':' :: r3 =>
          match parseValue fuel r3 with
          | none => none
          | some (v, r4) =>
            match r4.dropWhile isJsonWS with
            | ',' :: r5 =>
              parseMembers fuel (r5.dropWhile isJsonWS) (objInsert acc k v)
            | '}' :: r5 => some (.obj (objInsert acc k v), r5)
            | _ => none
        | _ => none
    | _ => none

/-- Parse the elements of a JSON array (positioned at a value). -/
def parseElems : Nat → List Char → List JVal → Option (JVal × List Char)
  | 0, _, _ => none
  | fuel + 1, l, acc =>
    match parseValue fuel l with
    | none => none
    | some (v, r) =>
      match r.dropWhile isJsonWS with
      | ',' :: r2 => parseElems fuel r2 (acc ++ [v])
      | ']' :: r2 => some (.arr (acc ++ [v]), r2)
      | _ => none

end

/-- `JSON.parse`: parse a complete JSON document (trailing content other
than whitespace is an error). -/
def jsonParse (s : List Char) : Option JVal :=
  match parseValue (s.length + 1) s with
  | some (v, rest) => if rest.dropWhile isJsonWS = [] then some v else none
  | none => none

/-! ## Store backend and backup serializer (`src/utils/backupRestore.ts`) -/

/-- The key-value Store Backend (AsyncStorage): an association list of
key/value string pairs, in insertion order. -/
abbrev Store := List (List Char × List Char)

/-- `AsyncStorage.setItem`: overwrite the value of an existing key in place,
else append the pair. -/
def setItem (st : Store) (k v : List Char) : Store :=
  if st.any (fun kv => kv.1 = k) then
    st.map (fun kv => if kv.1 = k then (k, v) else kv)
  else st ++ [(k, v)]

/-- One stored value as it enters the backup object: parsed as JSON when
possible, else kept as the raw string (`createBackup`, lines 39-47). -/
def parsedOrRaw (v : List Char) : JVal :=
  match jsonParse v with
  | some j => j
  | none => .str v

/-- The backup object assembled by `createBackup`: every key with a truthy
(non-empty) value, mapped to its parsed-or-raw value in key order. -/
def backupEntries (store : Store) : List (List Char × JVal) :=
  store.foldl
    (fun acc kv => if kv.2 = [] then acc else objInsert acc kv.1 (parsedOrRaw kv.2))
    []

/-- `createBackup` (`src/utils/backupRestore.ts` lines 30-54): read every
key, parse each value as JSON with raw-string fallback, serialize the
resulting object to text. -/
def createBackup (store : Store) : List Char :=
  jsStringifyVal (.obj (backupEntries store))

/-! ## Restore engine (`restoreFromBackup`, `src/utils/backupRestore.ts`) -/

/-- The distinct failure modes of `restoreFromBackup` (each a distinct
`throw new Error(...)` in the source). -/
inductive RErr where
  | emptyBackup : RErr        -- "Backup file appears to be empty"
  | malformedBackup : RErr    -- "Could not parse backup file - invalid JSON format"
  | unsupportedFormat : RErr  -- "Unsupported backup format"
  | noData : RErr             -- "Backup contains no data to restore"
  | restoreFailed : RErr      -- "Failed to restore any items"
  | typeError : RErr          -- TypeError from Object.entries(null)
  deriving DecidableEq

/-- Start-locating stage (lines 124-137): earliest occurrence among the
JSON-start marker patterns; drop everything before it when positive. -/
def stageStart (p : List Char) : List Char :=
  let opts := [indexOfSub p (strL "\x7b\""),
               indexOfSub p ['{', '\n', '"'],
               indexOfSub p (strL "\x7b \""),
               lastIndexOfSub p (strL "\x7b\"")].filterMap id
  match opts with
  | [] => p
  | o :: os =>
    let jsonStart := os.foldl Nat.min o
    if 0 < jsonStart then p.drop jsonStart else p

/-- Brace-balancing scan (lines 139-151): walk the characters tracking
open/close-brace depth and remember `i + 1` each time depth returns to
zero on a closing brace; returns (final depth, last such offset). -/
def scanBraces : List Char → Int → Nat → Nat → Int × Nat
  | [], cnt, _, lv => (cnt, lv)
  | c :: r, cnt, pos, lv =>
    if c = '{' then scanBraces r (cnt + 1) (pos + 1) lv
    else if c = '}' then
      scanBraces r (cnt - 1) (pos + 1) (if cnt - 1 = 0 then pos + 1 else lv)
    else scanBraces r cnt (pos + 1) lv

/-- End-locating stage (lines 139-156): truncate at the remembered offset
when it is positive and strictly before the end. -/
def stageTrunc (p : List Char) : List Char :=
  let lastValidPos := (scanBraces p 0 0 0).2
  if 0 < lastValidPos ∧ lastValidPos < p.length then p.take lastValidPos else p

/-- The preprocessing pipeline applied to the raw backup text before any
parse attempt: trim, locate start, locate end (lines 121-156). -/
def preprocess (input : List Char) : List Char :=
  stageTrunc (stageStart (jsTrim input))

/-- One pass of the repair step (lines 175-177): remove every comma
standing (up to whitespace) before the given closing character, as the
global regex replaces of `,\s*}` / `,\s*]`.  The fuel is an upper bound on
the number of steps; every call below supplies the input length, which
suffices because each step consumes at least one character. -/
def fixPass (close : Char) : Nat → List Char → List Char
  | _, [] => []
  | 0, l => l
  | fuel + 1, c :: rest =>
    if c = ',' ∧ (rest.dropWhile isJsWS).headI = close ∧
        (rest.dropWhile isJsWS) ≠ [] then
      close :: fixPass close fuel ((rest.dropWhile isJsWS).tail)
    else c :: fixPass close fuel rest

/-- The trailing-comma repair (lines 171-180): strip `,\s*}` then `,\s*]`. -/
def fixTrailingCommas (p : List Char) : List Char :=
  let q := fixPass '}' p.length p
  fixPass ']' q.length q

/-- Attempt to match the extraction regex
`"([^"]+)"\s*:\s*(string|digits|true|false|null|flat object|flat array)`
at the current position; on success return the key, the parse of the value
text (`none` when `JSON.parse` of it fails and the pair is skipped), and
the input after the match. -/
def matchKV (s : List Char) : Option (List Char × Option JVal × List Char) :=
  match s with
  | '"' :: r =>
    let key := r.takeWhile (fun c => c ≠ '"')
    let afterKey := r.dropWhile (fun c => c ≠ '"')
    if key = [] then none
    else
      match afterKey with
      | '"' :: r2 =>
        match (r2.dropWhile isJsWS) with
        | ':' :: r3 =>
          let r4 := r3.dropWhile isJsWS
          let valText? : Option (List Char × List Char) :=
            match r4 with
            | '"' :: rs =>
              -- string alternative  "(?:\\.|[^"\\])*"
              let rec lexStr : List Char → Option (List Char × List Char)
                | [] => none
                | c :: rr =>
                  if c = '"' then some ([c], rr)
                  else if c = '\\' then
                    match rr with
                    | [] => none
                    | e :: rr2 =>
                      if e = '\n' ∨ e = '\r' then none
                      else (lexStr rr2).map (fun p => (c :: e :: p.1, p.2))
                  else (lexStr rr).map (fun p => (c :: p.1, p.2))
              (lexStr rs).map (fun p => ('"' :: p.1, p.2))
            | '{' :: rs =>
              let body := rs.takeWhile (fun c => c ≠ '}')
              let after := rs.dropWhile (fun c => c ≠ '}')
              match after with
              | '}' :: rr => some ('{' :: body ++ ['}'], rr)
              | _ => none
            | '[' :: rs =>
              let body := rs.takeWhile (fun c => c ≠ ']')
              let after := rs.dropWhile (fun c => c ≠ ']')
              match after with
              | ']' :: rr => some ('[' :: body ++ [']'], rr)
              | _ => none
            | _ =>
              let ds := r4.takeWhile Char.isDigit
              if ds ≠ [] then some (ds, r4.drop ds.length)
              else if (strL "true").isPrefixOf r4 then
                some (strL "true", r4.drop 4)
              else if (strL "false").isPrefixOf r4 then
                some (strL "false", r4.drop 5)
              else if (strL "null").isPrefixOf r4 then
                some (strL "null", r4.drop 4)
              else none
          match valText? with
          | some (vt, after) => some (key, jsonParse vt, after)
          | none => none
        | _ => none
      | _ => none
  | _ => none

/-- Leftmost-first scan of the extraction regex over the whole input
(lines 186-200): at each position try a match, collect it and resume after
its end, else advance one character.  Fuel bounds the walk. -/
def scanExtract : Nat → List Char → List (List Char × Option JVal)
  | 0, _ => []
  | _, [] => []
  | fuel + 1, s@(_ :: rest) =>
    match matchKV s with
    | some (k, v?, after) => (k, v?) :: scanExtract fuel after
    | none => scanExtract fuel rest

/-- The last-resort extraction (lines 184-207): collect the successfully
parsed `"key": value` pairs into an object with assignment semantics. -/
def extractKVs (p : List Char) : List (List Char × JVal) :=
  (scanExtract p.length p).foldl
    (fun acc kv =>
      match kv.2 with
      | some v => objInsert acc kv.1 v
      | none => acc)
    []

/-- The full parse step (lines 161-212): strict parse, then the
trailing-comma repair, then regex extraction; `none` when all three fail. -/
def parseLenient (p : List Char) : Option JVal :=
  match jsonParse p with
  | some v => some v
  | none =>
    match jsonParse (fixTrailingCommas p) with
    | some v => some v
    | none =>
      let ext := extractKVs p
      if ext.isEmpty then none else some (.obj ext)

/-- Property access `value.data` as JS evaluates it in the normalization
conditions: a member lookup on objects, `undefined` on everything else. -/
def jsGetField (v : JVal) (k : List Char) : Option JVal :=
  match v with
  | .obj ms => lookupKV ms k
  | _ => none

/-- Shape normalization (lines 214-228): choose the key-space object.
`none` encodes the `Unsupported backup format` throw.  Mirrors the JS
conditions, including `typeof x === 'object'` being true for arrays and
`null`. -/
def normalizeShape (pd : JVal) : Option JVal :=
  if truthyJ pd && (match jsGetField pd (strL "data") with
                    | some d => truthyJ d && isObjTypeJ d
                    | none => false) then
    jsGetField pd (strL "data") |>.getD .null
  else if isObjTypeJ pd && !isArrJ pd then some pd
  else if isArrJ pd then some (.obj [(strL "gsm_devices", pd)])
  else none

/-- `Object.entries` of the chosen key-space: object members in order,
array elements under their decimal indices, a `TypeError` (`none`) on
`null`, characters of a string under their indices, and `[]` on the other
primitives — exactly the JS behavior. -/
def entriesOf : JVal → Option (List (List Char × JVal))
  | .obj ms => some ms
  | .arr es => some (es.enum.map (fun p => (natToChars p.1, p.2)))
  | .null => none
  | .str s => some (s.enum.map (fun p => (natToChars p.1, .str [p.2])))
  | _ => some []

/-- The serialized text written for one restored value (lines 258-259):
strings verbatim, everything else through `JSON.stringify`. -/
def valueToStore (v : JVal) : List Char :=
  match v with
  | .str s => s
  | _ => jsStringifyVal v

/-- The write loop (lines 252-265): skip `null` entries without writing or
counting, write every other entry, and count the successes. -/
def writeEntries (st : Store) : List (List Char × JVal) → Store × Nat
  | [] => (st, 0)
  | (k, v) :: rest =>
    if isNullJ v then writeEntries st rest
    else
      let p := writeEntries (setItem st k (valueToStore v)) rest
      (p.1, p.2 + 1)

/-- Everything after a successful parse (lines 214-272): normalize the
shape, clear the store, enumerate the entries, write them back. -/
def afterParse (store : Store) (pd : JVal) : Store × Except RErr Bool :=
  match normalizeShape pd with
  | none => (store, .error .unsupportedFormat)
  | some dataToStore =>
    -- clear existing data (lines 230-239) happens before the entries check
    match entriesOf dataToStore with
    | none => (([] : Store), .error .typeError)
    | some entries =>
      if entries.isEmpty then (([] : Store), .error .noData)
      else
        let p := writeEntries ([] : Store) entries
        if p.2 = 0 then (p.1, .error .restoreFailed) else (p.1, .ok true)

/-- `restoreFromBackup` (`src/utils/backupRestore.ts` lines 112-277):
returns the store after the call together with the reported result. -/
def restoreFromBackup (store : Store) (input : List Char) :
    Store × Except RErr Bool :=
  if input = [] then (store, .error .emptyBackup)
  else
    match parseLenient (preprocess input) with
    | none => (store, .error .malformedBackup)
    | some pd => afterParse store pd

/-! ## Command classifier and audit logger (`logSMSOperation`,
`src/unnamed/part_001` lines 248-299) -/

/-- Log entry categories. -/
inductive Cat where
  | relay : Cat
  | settings : Cat
  | user : Cat
  | system : Cat
  deriving DecidableEq

/-- The classification produced by `logSMSOperation` before it is appended
via `addDeviceLog`. -/
structure SMSClass where
  action : String
  category : Cat
  details : List Char
  deriving DecidableEq

/-- Match of `/\d{4}[A-Z]/` at the head of the input: four digits followed
by one uppercase letter. -/
def pwdShapeAt : List Char → Bool
  | d1 :: d2 :: d3 :: d4 :: u :: _ =>
    d1.isDigit && d2.isDigit && d3.isDigit && d4.isDigit && 'A' ≤ u && u ≤ 'Z'
  | _ => false

/-- Leftmost match of `/\d{4}[A-Z]/`: split the input into the part before
the match, the five matched characters, and the rest. -/
def findPwdRun : List Char → Option (List Char × List Char × List Char)
  | [] => none
  | s@(c :: r) =>
    if pwdShapeAt s then some ([], s.take 5, s.drop 5)
    else (findPwdRun r).map (fun p => (c :: p.1, p.2.1, p.2.2))

/-- The replacement template the source builds: `'****$&'.slice(4)`. -/
def maskTemplate : List Char := (strL "****$&").drop 4

/-- JS replacement-string expansion for the patterns used here (`$$` and
`$&`, the latter inserting the whole match). -/
def expandRepl : List Char → List Char → List Char
  | [], _ => []
  | '$' :: '&' :: r, m => m ++ expandRepl r m
  | '$' :: '$' :: r, m => '$' :: expandRepl r m
  | c :: r, m => c :: expandRepl r m

/-- `command.replace(/\d{4}[A-Z]/, '****$&'.slice(4))` (line 254): replace
the leftmost password-shaped run with the expansion of the template. -/
def maskedCommand (cmd : List Char) : List Char :=
  match findPwdRun cmd with
  | none => cmd
  | some (pre, m, post) => pre ++ expandRepl maskTemplate m ++ post

/-- Match of `GOT` followed by three digits at the head of the input. -/
def gotShapeAt : List Char → Option (List Char)
  | 'G' :: 'O' :: 'T' :: d1 :: d2 :: d3 :: _ =>
    if d1.isDigit && d2.isDigit && d3.isDigit then some [d1, d2, d3] else none
  | _ => none

/-- Leftmost match of `/GOT(\d{3})/`, returning the captured digits
(line 266). -/
def gotDigits : List Char → Option (List Char)
  | [] => none
  | s@(_ :: r) =>
    match gotShapeAt s with
    | some ds => some ds
    | none => gotDigits r

/-- Match of `/P\d{4}\d{4}#/` at the head of the input. -/
def pwdChangeAt : List Char → Bool
  | 'P' :: d1 :: d2 :: d3 :: d4 :: d5 :: d6 :: d7 :: d8 :: '#' :: _ =>
    d1.isDigit && d2.isDigit && d3.isDigit && d4.isDigit &&
    d5.isDigit && d6.isDigit && d7.isDigit && d8.isDigit
  | _ => false

/-- Whether `/P\d{4}\d{4}#/` matches anywhere in the command (line 284). -/
def hasPwdChange : List Char → Bool
  | [] => false
  | s@(_ :: r) => pwdChangeAt s || hasPwdChange r

/-- Match of `/A\d{3}#[^#]+#/` at the head of the input: `A`, three digits,
`#`, one or more non-`#` characters, `#`. -/
def addUserAt : List Char → Bool
  | 'A' :: d1 :: d2 :: d3 :: '#' :: rest =>
    d1.isDigit && d2.isDigit && d3.isDigit &&
    (let body := rest.takeWhile (fun c => c ≠ '#')
     !body.isEmpty && (rest.dropWhile (fun c => c ≠ '#')).headI = '#' &&
       !(rest.dropWhile (fun c => c ≠ '#')).isEmpty)
  | _ => false

/-- Whether `/A\d{3}#[^#]+#/` matches anywhere in the command (line 288). -/
def hasAddUser : List Char → Bool
  | [] => false
  | s@(_ :: r) => addUserAt s || hasAddUser r

/-- Match of `/A\d{3}##/` at the head of the input. -/
def removeUserAt : List Char → Bool
  | 'A' :: d1 :: d2 :: d3 :: '#' :: '#' :: _ =>
    d1.isDigit && d2.isDigit && d3.isDigit
  | _ => false

/-- Whether `/A\d{3}##/` matches anywhere in the command (line 292). -/
def hasRemoveUser : List Char → Bool
  | [] => false
  | s@(_ :: r) => removeUserAt s || hasRemoveUser r

/-- The classification and redaction performed by `logSMSOperation`
(`src/unnamed/part_001` lines 248-299) before the entry is appended with
`addDeviceLog`: the ordered, first-match-wins rule chain over the raw
command string. -/
def logSMSOperation (cmd : List Char) : SMSClass :=
  let masked := maskedCommand cmd
  if containsSub cmd (strL "CC") then
    ⟨"Gate Open Command", .relay,
      strL "Sent command to activate relay (open gate): " ++ masked⟩
  else if containsSub cmd (strL "DD") then
    ⟨"Gate Close Command", .relay,
      strL "Sent command to deactivate relay (close gate): " ++ masked⟩
  else if containsSub cmd (strL "GOT") then
    let time := (gotDigits cmd).getD (strL "unknown")
    ⟨"Relay Timing Setting", .settings,
      strL "Set relay timing to " ++
        (if time = strL "000" then strL "toggle mode"
         else time ++ strL " seconds") ++ strL ": " ++ masked⟩
  else if containsSub cmd (strL "ALL") then
    ⟨"Access Control Setting", .settings,
      strL "Set access mode to \"Allow All\" (any caller with password): " ++ masked⟩
  else if containsSub cmd (strL "AUT") then
    ⟨"Access Control Setting", .settings,
      strL "Set access mode to \"Authorized Only\": " ++ masked⟩
  else if containsSub cmd (strL "TEL") then
    ⟨"Admin Registration", .settings,
      strL "Registered administrator phone number: " ++ masked⟩
  else if containsSub cmd (strL "EE") then
    ⟨"Status Check", .system, strL "Requested device status: " ++ masked⟩
  else if hasPwdChange cmd then
    ⟨"Password Change", .settings, strL "Changed device password: " ++ masked⟩
  else if hasAddUser cmd then
    ⟨"User Management", .user, strL "Added authorized user: " ++ masked⟩
  else if hasRemoveUser cmd then
    ⟨"User Management", .user, strL "Removed authorized user: " ++ masked⟩
  else
    ⟨"Unknown Command", .relay, cmd⟩

/-! ## Device deletion cascade (`deleteDevice`)

The `DataStore` repository class itself is not under `src/`; only its
callers are.  Its cascade is therefore modelled from the spec (section 4.1)
below, and the wrapper from `src/unnamed/part_001` lines 174-200 is
embedded over it. -/

/-- Repository state relevant to deletion: device ids, log entries (by
owning device id) and the active-device reference. -/
structure RepoState where
  devices : List String
  logs : List String
  activeDeviceId : Option String
  deriving DecidableEq

/-- Injected sub-step failures of the cascade (storage faults). -/
structure CascadeFaults where
  primaryFail : Bool
  logsFail : Bool
  activeClearFail : Bool
  auditLogFail : Bool
  deriving DecidableEq

namespace DataStore

/-- Modelled from the spec: `deleteDevice(id)` of the Entity Repository
(section 4.1) — the `DataStore` class is not under `src/`.  Removes the
Device record, removes all LogEntry records for that device, and clears
`activeDeviceId` when it equals `id`; each sub-step is attempted
independently with no rollback, and the returned flag is true only if the
primary Device removal succeeded. -/
def deleteDevice (s : RepoState) (f : CascadeFaults) (id : String) :
    RepoState × Bool :=
  let primaryOk := s.devices.contains id && !f.primaryFail
  let s1 := if primaryOk then
      { s with devices := s.devices.filter (fun d => d ≠ id) } else s
  let s2 := if f.logsFail then s1
    else { s1 with logs := s1.logs.filter (fun d => d ≠ id) }
  let s3 := if f.activeClearFail then s2
    else if s2.activeDeviceId = some id then
      { s2 with activeDeviceId := none } else s2
  (s3, primaryOk)

/-- Modelled from the spec: `addDeviceLog` / `addLogEntry` (section 4.1).
The spec leaves the unknown-device policy as a documented implementation
choice (NotFoundError versus logging orphaned entries); the orphan-logging
choice is modelled, so the append fails only on an injected storage fault
(`StorageIOError`, section 6), which is the `auditLogFail` flag. -/
def addDeviceLog (s : RepoState) (f : CascadeFaults) (id : String) :
    Option RepoState :=
  if f.auditLogFail then none else some { s with logs := s.logs ++ [id] }

end DataStore

namespace DataStoreContext

/-- `deleteDevice` of the context provider (`src/unnamed/part_001` lines
174-200): call the repository cascade; on success refresh and append a
follow-up audit log entry; any exception lands in the catch, which
returns `false`. -/
def deleteDevice (s : RepoState) (f : CascadeFaults) (id : String) :
    RepoState × Bool :=
  let p := DataStore.deleteDevice s f id
  if p.2 then
    -- `refreshStore` catches internally and cannot throw (lines 98-133)
    match DataStore.addDeviceLog p.1 f id with
    | some s2 => (s2, true)
    | none => (p.1, false)   -- catch (error) ... return false
  else (p.1, false)

end DataStoreContext

/-! ## Synchronization layer (`refreshStore`, `src/unnamed/part_001`
lines 98-133) -/

/-- The cached snapshot published to readers ({devices, users,
globalSettings}), and the repository state it is compared against, as
JSON values so that the comparison can be the source's
`JSON.stringify`-equality check. -/
structure SyncState where
  isRefreshing : Bool
  cache : JVal
  reads : Nat

/-- The in-flight guard at the top of `refreshStore` (lines 99-101): a
second call while the flag is set returns at once (`false`); otherwise the
flag is taken. -/
def refreshBegin (c : SyncState) : SyncState × Bool :=
  if c.isRefreshing then (c, false) else ({ c with isRefreshing := true }, true)

/-- The body of `refreshStore` (lines 104-127): one read of the
repository (`dataStore.getStore()`), then replace the cached snapshot only
when the `JSON.stringify` comparison says it changed. -/
def refreshRead (c : SyncState) (repo : JVal) : SyncState :=
  { c with
    reads := c.reads + 1,
    cache := if jsStringifyVal c.cache = jsStringifyVal repo then c.cache else repo }

/-- The `finally` block (lines 130-132): release the flag. -/
def refreshFinish (c : SyncState) : SyncState :=
  { c with isRefreshing := false }

/-- A complete `refreshStore` call. -/
def refreshStore (c : SyncState) (repo : JVal) : SyncState :=
  let p := refreshBegin c
  if p.2 then refreshFinish (refreshRead p.1 repo) else p.1

/-! ## Side-condition vocabulary for the amended claims -/

/-- Right trim only: strip trailing whitespace. -/
def rtrimWS (l : List Char) : List Char :=
  (l.reverse.dropWhile isJsWS).reverse

/-- A stored value that survives the backup round trip unchanged: either it
is not JSON (the raw-string path), or it parses to a non-null, non-string
value whose serialization is exactly the original text. -/
def canonicalValue (v : List Char) : Bool :=
  match jsonParse v with
  | none => true
  | some j => !isNullJ j && !isStrJ j && (jsStringifyVal j == v)

/-- The pairs actually written back by a successful restore of a key-space:
strings verbatim, other values serialized. -/
def restoredPairs (kvs : List (List Char × JVal)) : Store :=
  kvs.map (fun kv => (kv.1, valueToStore kv.2))

/-- The backup object as a plain map (what `backupEntries` computes when
the store keys are distinct and the values non-empty). -/
def backupMap (store : Store) : List (List Char × JVal) :=
  store.map (fun kv => (kv.1, parsedOrRaw kv.2))

/-- Characters that may legally follow a serialized JSON value without
changing how it parses (used to state the serializer/parser round trip):
nothing, or anything that is not a digit and not `.`, `e`, `E`. -/
def restOk : List Char → Bool
  | [] => true
  | c :: _ => !(c.isDigit || c = '.' || c = 'e' || c = 'E')

/-- Object member lists with pairwise distinct keys. -/
def noDupKeys : List (List Char × JVal) → Bool
  | [] => true
  | (k, _) :: tl => !(tl.any (fun m => m.1 = k)) && noDupKeys tl

mutual

/-- Values all of whose object member lists have pairwise distinct keys —
the invariant maintained by the parser's assignment semantics and the
precondition of the serializer/parser round trip. -/
def canonKeys : JVal → Bool
  | .null => true
  | .bool _ => true
  | .num _ => true
  | .str _ => true
  | .arr es => canonKeysList es
  | .obj ms => noDupKeys ms && canonKeysMems ms

/-- `canonKeys` over array elements. -/
def canonKeysList : List JVal → Bool
  | [] => true
  | e :: es => canonKeys e && canonKeysList es

/-- `canonKeys` over object member values. -/
def canonKeysMems : List (List Char × JVal) → Bool
  | [] => true
  | (_, v) :: ms => canonKeys v && canonKeysMems ms

end

mutual

/-- Fuel needed by the recursive-descent parser on a serialized value. -/
def jsize : JVal → Nat
  | .null => 1
  | .bool _ => 1
  | .num _ => 1
  | .str _ => 1
  | .arr es => 1 + jsizeList es
  | .obj ms => 1 + jsizeMems ms

/-- Fuel needed by `parseElems` on serialized array elements. -/
def jsizeList : List JVal → Nat
  | [] => 0
  | e :: es => 1 + Nat.max (jsize e) (jsizeList es)

/-- Fuel needed by `parseMembers` on serialized object members. -/
def jsizeMems : List (List Char × JVal) → Nat
  | [] => 0
  | (_, v) :: ms => 1 + Nat.max (jsize v) (jsizeMems ms)

end

/-! ## Theorems -/

/-- C1: the spec's redaction rule says the 4-digit run before an uppercase
letter is replaced by a mask of equal length, and that classifying
`"1234CC#"` produces a logged detail without the substring `"1234"`.  The
code's replacement template `'****$&'.slice(4)` evaluates to `'$&'`, which
re-inserts the whole match, so the command is logged with the password in
the clear: the detail for `"1234CC#"` is the raw command appended to the
action text and still contains `"1234"`.  This contradicts the source's own
comment ("Create a masked command to protect sensitive information like
passwords"). -/
theorem c1_redaction_noop_at_1234CC :
    maskTemplate = strL "$&" ∧
    maskedCommand (strL "1234CC#") = strL "1234CC#" ∧
    logSMSOperation (strL "1234CC#") =
      ⟨"Gate Open Command", Cat.relay,
        strL "Sent command to activate relay (open gate): 1234CC#"⟩ ∧
    containsSub (logSMSOperation (strL "1234CC#")).details (strL "1234") = true :=
  ⟨rfl, rfl, rfl, rfl⟩

/-- C7: classification is first-match-wins with the `"CC"` rule first — any
command containing `"CC"` is classified as action "Gate Open Command" with
category relay, regardless of which later-rule substrings it also
contains. -/
theorem c7_cc_rule_first (cmd : List Char)
    (h : containsSub cmd (strL "CC") = true) :
    (logSMSOperation cmd).action = "Gate Open Command" ∧
    (logSMSOperation cmd).category = Cat.relay := by
  unfold logSMSOperation
  simp [h]

/-- Witness for C7 on a command that also contains the substrings of every
later contains-rule (`DD`, `GOT`, `ALL`, `AUT`, `TEL`, `EE`). -/
theorem c7_cc_rule_first_witness :
    containsSub (strL "1234CCDDGOTALLAUTTELEE#") (strL "CC") = true ∧
    (logSMSOperation (strL "1234CCDDGOTALLAUTTELEE#")).action = "Gate Open Command" ∧
    (logSMSOperation (strL "1234CCDDGOTALLAUTTELEE#")).category = Cat.relay :=
  ⟨by decide, (c7_cc_rule_first _ (by decide)).1, (c7_cc_rule_first _ (by decide)).2⟩

/-- C8: a command containing `"GOT"` and neither `"CC"` nor `"DD"` is
classified as action "Relay Timing Setting" with category settings, and its
detail is built from the three digits captured after `GOT` — "toggle mode"
when they are `000`, otherwise the digits followed by " seconds"; in
particular `"1234GOT045#"` yields a settings entry whose detail mentions
"45 seconds" and `"1234GOT000#"` yields a detail mentioning toggle mode. -/
theorem c8_got_classification :
    (∀ cmd : List Char,
      containsSub cmd (strL "CC") = false →
      containsSub cmd (strL "DD") = false →
      containsSub cmd (strL "GOT") = true →
      (logSMSOperation cmd).action = "Relay Timing Setting" ∧
      (logSMSOperation cmd).category = Cat.settings ∧
      (logSMSOperation cmd).details =
        strL "Set relay timing to " ++
          (if (gotDigits cmd).getD (strL "unknown") = strL "000" then
            strL "toggle mode"
           else (gotDigits cmd).getD (strL "unknown") ++ strL " seconds") ++
          strL ": " ++ maskedCommand cmd) ∧
    gotDigits (strL "1234GOT045#") = some (strL "045") ∧
    (logSMSOperation (strL "1234GOT045#")).category = Cat.settings ∧
    containsSub (logSMSOperation (strL "1234GOT045#")).details
      (strL "45 seconds") = true ∧
    gotDigits (strL "1234GOT000#") = some (strL "000") ∧
    containsSub (logSMSOperation (strL "1234GOT000#")).details
      (strL "toggle mode") = true := by
  refine ⟨?_, rfl, rfl, rfl, rfl, rfl⟩
  intro cmd h1 h2 h3
  unfold logSMSOperation
  simp [h1, h2, h3]

/-- Witness for C8's universally quantified part at `"1234GOT045#"`. -/
theorem c8_got_classification_witness :
    containsSub (strL "1234GOT045#") (strL "CC") = false ∧
    containsSub (strL "1234GOT045#") (strL "DD") = false ∧
    containsSub (strL "1234GOT045#") (strL "GOT") = true ∧
    (logSMSOperation (strL "1234GOT045#")).action = "Relay Timing Setting" :=
  ⟨by decide, by decide, by decide,
    (c8_got_classification.1 _ (by decide) (by decide) (by decide)).1⟩

/-- C9: a `refreshStore` call made while the in-flight flag is set is a
complete no-op (it neither reads the repository nor changes any state), so
a second refresh issued between another refresh's begin and read performs
zero reads and the overlapped pair performs exactly one read in total. -/
theorem c9_refresh_single_flight :
    (∀ (c : SyncState) (repo : JVal), c.isRefreshing = true →
      refreshStore c repo = c) ∧
    (∀ (c : SyncState) (r1 r2 : JVal), c.isRefreshing = false →
      refreshStore (refreshBegin c).1 r2 = (refreshBegin c).1 ∧
      (refreshFinish (refreshRead (refreshStore (refreshBegin c).1 r2) r1)).reads =
        c.reads + 1) := by
  constructor
  · intro c repo h
    unfold refreshStore refreshBegin
    simp [h]
  · intro c r1 r2 h
    constructor
    · unfold refreshStore refreshBegin
      simp [h]
    · unfold refreshStore refreshBegin refreshRead refreshFinish
      simp [h]

/-- Witness for C9 at a concrete state: an in-flight state is untouched,
and an overlapped pair of refreshes from an idle state reads once. -/
theorem c9_refresh_single_flight_witness :
    (SyncState.mk true JVal.null 3).isRefreshing = true ∧
    refreshStore ⟨true, JVal.null, 3⟩ (JVal.num 1) = ⟨true, JVal.null, 3⟩ ∧
    (SyncState.mk false JVal.null 0).isRefreshing = false ∧
    (refreshFinish (refreshRead
      (refreshStore (refreshBegin ⟨false, JVal.null, 0⟩).1 (JVal.num 2))
      (JVal.num 1))).reads = 1 :=
  ⟨rfl, c9_refresh_single_flight.1 _ _ rfl, rfl,
    (c9_refresh_single_flight.2 ⟨false, JVal.null, 0⟩ (JVal.num 1) (JVal.num 2) rfl).2⟩

/-- C10: the write phase skips an entry whose value is null — the store is
not written and the success counter not incremented — so a normalized
key-space consisting solely of null values yields zero writes, and a backup
like `{"a":null,"b":null}` fails with the zero-writes error
(`Failed to restore any items`) instead of succeeding. -/
theorem c10_null_values_skipped :
    (∀ (st : Store) (k : List Char) (rest : List (List Char × JVal)),
      writeEntries st ((k, JVal.null) :: rest) = writeEntries st rest) ∧
    (∀ (st : Store) (entries : List (List Char × JVal)),
      (∀ kv ∈ entries, isNullJ kv.2 = true) →
      writeEntries st entries = (st, 0)) ∧
    restoreFromBackup [(strL "x", strL "y")]
      (strL "\x7b\"a\":null,\"b\":null\x7d") = ([], .error .restoreFailed) := by
  refine ⟨?_, ?_, rfl⟩
  · intro st k rest
    simp [writeEntries, isNullJ]
  · intro st entries h
    induction entries with
    | nil => rfl
    | cons kv rest ih =>
      have hkv : isNullJ kv.2 = true := h kv (by simp)
      cases kv with
      | mk k v =>
        simp only [writeEntries, hkv, if_pos]
        exact ih fun x hx => h x (by simp [hx])

/-- Witness for C10's quantified parts at a concrete all-null key-space. -/
theorem c10_null_values_skipped_witness :
    writeEntries [(strL "x", strL "y")] [(strL "a", JVal.null)] =
      ([(strL "x", strL "y")], 0) :=
  c10_null_values_skipped.2.1 _ _ (by intro kv hkv; fin_cases hkv; rfl)

/-- C6 counterexample: with one device `"d1"` and an injected failure of
only the follow-up audit-log write, the primary Device removal succeeds
(the device list is emptied) and yet the wrapper reports `false` — the
claimed "returns true if and only if the primary Device removal succeeded"
fails, because the wrapper's catch turns the audit-log failure into a
`false` return. -/
theorem c6_delete_report_counterexample :
    (DataStoreContext.deleteDevice ⟨["d1"], ["d1"], some "d1"⟩
      ⟨false, false, false, true⟩ "d1").2 = false ∧
    (DataStoreContext.deleteDevice ⟨["d1"], ["d1"], some "d1"⟩
      ⟨false, false, false, true⟩ "d1").1.devices = [] :=
  ⟨rfl, rfl⟩

/-- C6 amended: `deleteDevice` of the context provider returns true iff the
primary Device removal succeeded AND the follow-up audit-log append did not
throw; failures of the repository cascade's later sub-steps (log removal,
active-device clearing) never change the reported result, and no sub-step
failure rolls back an earlier one — the device stays removed and the
active-device reference stays cleared whatever fails afterwards. -/
theorem c6_delete_report_amended (s : RepoState) (f : CascadeFaults)
    (id : String) :
    ((DataStoreContext.deleteDevice s f id).2 = true ↔
      (id ∈ s.devices ∧ f.primaryFail = false ∧ f.auditLogFail = false)) ∧
    (id ∈ s.devices → f.primaryFail = false →
      id ∉ (DataStoreContext.deleteDevice s f id).1.devices) ∧
    (id ∈ s.devices → f.primaryFail = false → f.activeClearFail = false →
      s.activeDeviceId = some id →
      (DataStoreContext.deleteDevice s f id).1.activeDeviceId = none) := by
  unfold DataStoreContext.deleteDevice DataStore.deleteDevice
    DataStore.addDeviceLog
  by_cases hc : id ∈ s.devices <;>
    cases hp : f.primaryFail <;>
    cases hl : f.logsFail <;>
    cases hac : f.activeClearFail <;>
    cases ha : f.auditLogFail <;>
    simp [hc, hp, hl, hac, ha, List.mem_filter] <;>
    split_ifs <;>
    simp_all [List.mem_filter]

/-- Witness for C6's amended statement: with no injected failures the
wrapper reports true and the device is gone; with only the audit-log
failure injected it reports false while the device is still gone. -/
theorem c6_delete_report_amended_witness :
    (DataStoreContext.deleteDevice ⟨["d1"], ["d1"], some "d1"⟩
      ⟨false, false, false, false⟩ "d1").2 = true ∧
    "d1" ∉ (DataStoreContext.deleteDevice ⟨["d1"], ["d1"], some "d1"⟩
      ⟨false, false, false, true⟩ "d1").1.devices ∧
    (DataStoreContext.deleteDevice ⟨["d1"], ["d1"], some "d1"⟩
      ⟨false, false, false, true⟩ "d1").1.activeDeviceId = none :=
  ⟨(c6_delete_report_amended ⟨["d1"], ["d1"], some "d1"⟩
      ⟨false, false, false, false⟩ "d1").1.mpr ⟨by decide, rfl, rfl⟩,
   (c6_delete_report_amended ⟨["d1"], ["d1"], some "d1"⟩
      ⟨false, false, false, true⟩ "d1").2.1 (by decide) rfl,
   (c6_delete_report_amended ⟨["d1"], ["d1"], some "d1"⟩
      ⟨false, false, false, true⟩ "d1").2.2 (by decide) rfl rfl rfl⟩

/-- Helper: dropping while a predicate holds of every element empties the
list. -/
theorem dropWhile_eq_nil_of_all (l : List Char)
    (h : ∀ c ∈ l, isJsWS c = true) : l.dropWhile isJsWS = [] := by
  induction l with
  | nil => rfl
  | cons c r ih =>
    rw [List.dropWhile_cons, if_pos (by simp [h c (by simp)])]
    exact ih fun x hx => h x (by simp [hx])

/-- Helper: trimming a whitespace-only string yields the empty string. -/
theorem jsTrim_eq_nil_of_all (s : List Char)
    (h : ∀ c ∈ s, isJsWS c = true) : jsTrim s = [] := by
  unfold jsTrim
  rw [dropWhile_eq_nil_of_all s h]
  rfl

/-- C3 counterexample: a whitespace-only input (here a single space) is
truthy in JS, so it passes the empty-input guard, and after trimming every
parse strategy fails — the restore fails with the malformed-backup error
(`Could not parse backup file - invalid JSON format`), not with
EmptyBackupError as claimed.  The store is still left untouched. -/
theorem c3_whitespace_counterexample :
    restoreFromBackup [(strL "x", strL "y")] (strL " ") =
      ([(strL "x", strL "y")], .error .malformedBackup) ∧
    RErr.malformedBackup ≠ RErr.emptyBackup :=
  ⟨rfl, by decide⟩

/-- C3 amended: only the genuinely empty input fails with EmptyBackupError;
a nonempty whitespace-only input instead fails with the malformed-backup
error.  In both cases the store's key-space is left completely
unchanged. -/
theorem c3_empty_input_amended (store : Store) (s : List Char) :
    restoreFromBackup store [] = (store, .error .emptyBackup) ∧
    (s ≠ [] → (∀ c ∈ s, isJsWS c = true) →
      restoreFromBackup store s = (store, .error .malformedBackup)) := by
  constructor
  · rfl
  · intro hne hws
    have htrim : jsTrim s = [] := jsTrim_eq_nil_of_all s hws
    unfold restoreFromBackup preprocess
    rw [if_neg hne, htrim]
    rfl

/-- Witness for C3's amended statement at the empty store-state and the
single-space input. -/
theorem c3_empty_input_amended_witness :
    restoreFromBackup [(strL "x", strL "y")] [] =
      ([(strL "x", strL "y")], .error .emptyBackup) ∧
    restoreFromBackup [(strL "x", strL "y")] (strL "  ") =
      ([(strL "x", strL "y")], .error .malformedBackup) :=
  ⟨(c3_empty_input_amended [(strL "x", strL "y")] (strL "  ")).1,
   (c3_empty_input_amended [(strL "x", strL "y")] (strL "  ")).2
     (by decide) (by decide)⟩

/-- C5 counterexample: for the parsed backup `{"data":["x"]}` the top-level
`data` field is an array, not a non-array object, so under the claim the
whole parsed object would be the key-space and the key written would be
`"data"`.  The code's `typeof parsedData.data === 'object'` test is true
for arrays, so the array itself becomes the key-space and its entries are
written under their numeric indices: the restored store is
`[("0", "x")]` and contains no `"data"` key. -/
theorem c5_data_array_counterexample :
    restoreFromBackup [] (strL "\x7b\"data\":[\"x\"]\x7d") =
      ([(strL "0", strL "x")], .ok true) ∧
    (∀ kv ∈ (restoreFromBackup [] (strL "\x7b\"data\":[\"x\"]\x7d")).1,
      kv.1 ≠ strL "data") := by
  refine ⟨rfl, ?_⟩
  intro kv hkv
  have h2 : kv ∈ ([(strL "0", strL "x")] : Store) := hkv
  have h3 : kv = (strL "0", strL "x") := by simpa using h2
  rw [h3]
  decide

/-- C5 amended: the normalization uses a truthy top-level `data` field of
object type — a non-null object or an array — as the key-space; else a
value of object type that is not an array (which includes `null`) is used
directly, with a parsed `null` then crashing at entry enumeration with a
type error rather than UnsupportedFormatError; else an array is wrapped
under the legacy device-list key; only the remaining primitives (numbers,
booleans, strings) fail with UnsupportedFormatError. -/
theorem c5_shape_normalization_amended :
    (∀ (kvs : List (List Char × JVal)) (d : JVal),
      lookupKV kvs (strL "data") = some d → truthyJ d = true →
      isObjTypeJ d = true →
      normalizeShape (.obj kvs) = some d) ∧
    (∀ kvs : List (List Char × JVal),
      (match lookupKV kvs (strL "data") with
       | some d => truthyJ d = false ∨ isObjTypeJ d = false
       | none => True) →
      normalizeShape (.obj kvs) = some (.obj kvs)) ∧
    (∀ es : List JVal,
      normalizeShape (.arr es) = some (.obj [(strL "gsm_devices", .arr es)])) ∧
    (normalizeShape .null = some .null ∧
      ∀ store : Store, afterParse store .null = ([], .error .typeError)) ∧
    (∀ (store : Store) (n : Int),
      afterParse store (.num n) = (store, .error .unsupportedFormat)) ∧
    (∀ (store : Store) (b : Bool),
      afterParse store (.bool b) = (store, .error .unsupportedFormat)) ∧
    (∀ (store : Store) (s : List Char),
      afterParse store (.str s) = (store, .error .unsupportedFormat)) := by
  refine ⟨?_, ?_, ?_, ⟨rfl, fun _ => rfl⟩, ?_, ?_, ?_⟩
  · intro kvs d hd htr hob
    have h1 : truthyJ (JVal.obj kvs) = true := rfl
    simp [normalizeShape, jsGetField, hd, htr, hob, h1]
  · intro kvs hd
    have h1 : truthyJ (JVal.obj kvs) = true := rfl
    have h2 : isObjTypeJ (JVal.obj kvs) = true := rfl
    have h3 : isArrJ (JVal.obj kvs) = false := rfl
    cases hl : lookupKV kvs (strL "data") with
    | none => simp [normalizeShape, jsGetField, hl, h1, h2, h3]
    | some d =>
      rw [hl] at hd
      rcases hd with h | h <;> simp [normalizeShape, jsGetField, hl, h, h1, h2, h3]
  · intro es
    have h1 : truthyJ (JVal.arr es) = true := rfl
    have h2 : isObjTypeJ (JVal.arr es) = true := rfl
    have h3 : isArrJ (JVal.arr es) = true := rfl
    simp [normalizeShape, jsGetField, h1, h2, h3]
  · intro store n
    have h2 : isObjTypeJ (JVal.num n) = false := rfl
    have h3 : isArrJ (JVal.num n) = false := rfl
    simp [afterParse, normalizeShape, jsGetField, h2, h3]
  · intro store b
    cases b <;> rfl
  · intro store s
    have h2 : isObjTypeJ (JVal.str s) = false := rfl
    have h3 : isArrJ (JVal.str s) = false := rfl
    simp [afterParse, normalizeShape, jsGetField, h2, h3]

/-- Witness for C5's amended statement at concrete parsed values: an
object-valued `data` field is taken, an array-valued `data` field is also
taken, and an object without a `data` field is used directly. -/
theorem c5_shape_normalization_amended_witness :
    normalizeShape (.obj [(strL "data", .obj [(strL "p", .num 1)])]) =
      some (.obj [(strL "p", .num 1)]) ∧
    normalizeShape (.obj [(strL "data", .arr [.str (strL "x")])]) =
      some (.arr [.str (strL "x")]) ∧
    normalizeShape (.obj [(strL "a", .num 1)]) =
      some (.obj [(strL "a", .num 1)]) :=
  ⟨c5_shape_normalization_amended.1 _ _ rfl rfl rfl,
   c5_shape_normalization_amended.1 _ _ rfl rfl rfl,
   c5_shape_normalization_amended.2.1 _ (by trivial)⟩

/-- Helper: the brace scan distributes over append. -/
theorem scanBraces_append (a b : List Char) (cnt : Int) (pos lv : Nat) :
    scanBraces (a ++ b) cnt pos lv =
      scanBraces b (scanBraces a cnt pos lv).1 (pos + a.length)
        (scanBraces a cnt pos lv).2 := by
  induction a generalizing cnt pos lv with
  | nil => simp [scanBraces]
  | cons c r ih =>
    simp only [List.cons_append, scanBraces, List.length_cons, List.append_eq]
    by_cases h1 : c = '{'
    · rw [if_pos h1, if_pos h1, ih,
        show pos + 1 + r.length = pos + (r.length + 1) from by omega]
    · by_cases h2 : c = '}'
      · rw [if_neg h1, if_pos h2, if_neg h1, if_pos h2, ih,
          show pos + 1 + r.length = pos + (r.length + 1) from by omega]
      · rw [if_neg h1, if_neg h2, if_neg h1, if_neg h2, ih,
          show pos + 1 + r.length = pos + (r.length + 1) from by omega]

/-- Helper: a brace-free stretch leaves the scan state unchanged. -/
theorem scanBraces_no_brace :
    ∀ (b : List Char) (cnt : Int) (pos lv : Nat),
      (∀ c ∈ b, c ≠ '{' ∧ c ≠ '}') → scanBraces b cnt pos lv = (cnt, lv)
  | [], _, _, _, _ => rfl
  | c :: r, cnt, pos, lv, h => by
    have hc := h c (List.mem_cons_self c r)
    simp only [scanBraces, if_neg hc.1, if_neg hc.2]
    exact scanBraces_no_brace r cnt (pos + 1) lv
      (fun x hx => h x (List.mem_cons_of_mem c hx))

/-- Helper: trimming an object-shaped text followed by arbitrary trailing
text keeps the object and right-trims the tail. -/
theorem jsTrim_brace (i b : List Char) :
    jsTrim ((('{' :: i) ++ ['}']) ++ b) = (('{' :: i) ++ ['}']) ++ rtrimWS b := by
  have h0 : isJsWS '{' = false := rfl
  have h1 : isJsWS '}' = false := rfl
  unfold jsTrim rtrimWS
  have hdrop : ((('{' :: i) ++ ['}']) ++ b).dropWhile isJsWS =
      (('{' :: i) ++ ['}']) ++ b := by
    simp [List.cons_append, List.dropWhile_cons, h0]
  rw [hdrop]
  have hrev : ((('{' :: i) ++ ['}']) ++ b).reverse =
      b.reverse ++ ('}' :: ('{' :: i).reverse) := by
    simp
  rw [hrev, List.dropWhile_append]
  by_cases he : (b.reverse.dropWhile isJsWS).isEmpty
  · rw [if_pos he]
    rw [List.dropWhile_cons, if_neg (by simp [h1])]
    have hb : b.reverse.dropWhile isJsWS = [] := by
      simpa using he
    rw [hb]
    simp
  · rw [if_neg he]
    simp


/-- Helper: a fold of `Nat.min` starting at zero stays zero. -/
theorem foldl_min_zero (l : List Nat) : l.foldl Nat.min 0 = 0 := by
  induction l with
  | nil => rfl
  | cons x xs ih => simpa [Nat.min_def] using ih

/-- Helper: the start-locating stage leaves text already beginning with
`{"` unchanged. -/
theorem stageStart_objhead (t : List Char) :
    stageStart ('{' :: '"' :: t) = '{' :: '"' :: t := by
  unfold stageStart
  have h0 : indexOfSub ('{' :: '"' :: t) (strL "\x7b\"") = some 0 := by
    unfold indexOfSub
    rw [if_pos (by simp [strL, List.isPrefixOf])]
  rw [h0]
  simp [List.filterMap_cons, foldl_min_zero]

/-- Helper: the end-locating stage truncates a text whose scan ends at
depth zero exactly at its end, followed by a brace-free tail, to that
text. -/
theorem stageTrunc_obj (a b : List Char) (ha0 : a ≠ [])
    (hscan : scanBraces a 0 0 0 = (0, a.length))
    (hb : ∀ c ∈ b, c ≠ '{' ∧ c ≠ '}') :
    stageTrunc (a ++ b) = a := by
  unfold stageTrunc
  have h1 : scanBraces (a ++ b) 0 0 0 = (0, a.length) := by
    rw [scanBraces_append, hscan]
    simpa using scanBraces_no_brace b 0 (0 + a.length) a.length hb
  rw [h1]
  by_cases hbe : b = []
  · subst hbe
    simp
  · have hlen : a.length < (a ++ b).length := by
      have : 0 < b.length := List.length_pos.mpr hbe
      simp [List.length_append]
      omega
    have hpos : 0 < a.length := List.length_pos.mpr ha0
    simp only []
    rw [if_pos ⟨hpos, hlen⟩]
    exact List.take_left a b

/-- Helper: membership in the right-trimmed list implies membership. -/
theorem mem_rtrimWS (b : List Char) (c : Char) (h : c ∈ rtrimWS b) : c ∈ b := by
  unfold rtrimWS at h
  rw [List.mem_reverse] at h
  have h2 := (List.dropWhile_sublist (l := b.reverse) isJsWS).subset h
  rwa [List.mem_reverse] at h2

/-- Helper: the whole preprocessing pipeline keeps exactly the leading
balanced object when the trailing text is brace-free. -/
theorem preprocess_obj (i b : List Char)
    (hscan : scanBraces (('{' :: '"' :: i) ++ ['}']) 0 0 0 =
      (0, (('{' :: '"' :: i) ++ ['}']).length))
    (hb : ∀ c ∈ b, c ≠ '{' ∧ c ≠ '}') :
    preprocess ((('{' :: '"' :: i) ++ ['}']) ++ b) = ('{' :: '"' :: i) ++ ['}'] := by
  unfold preprocess
  rw [jsTrim_brace ('"' :: i) b]
  have hshape : (('{' :: '"' :: i) ++ ['}']) ++ rtrimWS b =
      '{' :: '"' :: (i ++ ['}'] ++ rtrimWS b) := by simp
  rw [hshape, stageStart_objhead, ← hshape]
  exact stageTrunc_obj _ _ (by simp) hscan
    (fun c hc => hb c (mem_rtrimWS b c hc))

/-- Helper: writing a pair whose key is absent appends it. -/
theorem setItem_append (st : Store) (k v : List Char)
    (h : ∀ kv ∈ st, kv.1 ≠ k) : setItem st k v = st ++ [(k, v)] := by
  have hc : st.any (fun kv => kv.1 = k) = false := by
    rw [List.any_eq_false]
    intro kv hkv
    simpa using h kv hkv
  simp [setItem, hc]

/-- Helper: the write loop over distinct-key, null-free entries appends
exactly the serialized pairs and counts every one of them. -/
theorem writeEntries_clean :
    ∀ (ms : List (List Char × JVal)) (st : Store),
      (∀ kv ∈ ms, ∀ kv2 ∈ st, kv.1 ≠ kv2.1) →
      (ms.map Prod.fst).Nodup →
      (∀ kv ∈ ms, isNullJ kv.2 = false) →
      writeEntries st ms = (st ++ restoredPairs ms, ms.length)
  | [], st, _, _, _ => by simp [writeEntries, restoredPairs]
  | (k, v) :: rest, st, hdisj, hnodup, hnn => by
    have hv : isNullJ v = false := hnn (k, v) (List.mem_cons_self _ _)
    have hset : setItem st k (valueToStore v) = st ++ [(k, valueToStore v)] :=
      setItem_append st k _ (fun kv2 hkv2 =>
        Ne.symm (hdisj (k, v) (List.mem_cons_self _ _) kv2 hkv2))
    rw [List.map_cons] at hnodup
    have hn := List.nodup_cons.mp hnodup
    have hrec := writeEntries_clean rest (st ++ [(k, valueToStore v)])
      (by
        intro kv hkv kv2 hkv2
        rcases List.mem_append.mp hkv2 with h2 | h2
        · exact hdisj kv (List.mem_cons_of_mem _ hkv) kv2 h2
        · have heq : kv2 = (k, valueToStore v) := by simpa using h2
          rw [heq]
          intro he
          exact hn.1 (he ▸ List.mem_map.mpr ⟨kv, hkv, rfl⟩))
      hn.2
      (fun kv hkv => hnn kv (List.mem_cons_of_mem _ hkv))
    have hstep : writeEntries st ((k, v) :: rest) =
        ((writeEntries (st ++ [(k, valueToStore v)]) rest).1,
         (writeEntries (st ++ [(k, valueToStore v)]) rest).2 + 1) := by
      simp [writeEntries, hv, hset]
    rw [hstep, hrec]
    simp [restoredPairs, List.append_assoc]

/-- Helper: a key different from every key of the list is not found. -/
theorem lookupKV_none (ms : List (List Char × JVal)) (key : List Char)
    (h : ∀ kv ∈ ms, kv.1 ≠ key) : lookupKV ms key = none := by
  induction ms with
  | nil => rfl
  | cons kv rest ih =>
    cases kv with
    | mk k v =>
      rw [lookupKV, if_neg (h (k, v) (List.mem_cons_self _ _))]
      exact ih fun x hx => h x (List.mem_cons_of_mem _ hx)

/-- Helper: a successful parse to a plain object without a `data` key,
with distinct keys, at least one entry and no null values, restores
exactly its serialized pairs. -/
theorem afterParse_obj (store : Store) (kvs : List (List Char × JVal))
    (hdata : lookupKV kvs (strL "data") = none)
    (hne : kvs ≠ [])
    (hnodup : (kvs.map Prod.fst).Nodup)
    (hnn : ∀ kv ∈ kvs, isNullJ kv.2 = false) :
    afterParse store (.obj kvs) = (restoredPairs kvs, .ok true) := by
  unfold afterParse
  have hnorm : normalizeShape (.obj kvs) = some (.obj kvs) := by
    have h1 : truthyJ (JVal.obj kvs) = true := rfl
    have h2 : isObjTypeJ (JVal.obj kvs) = true := rfl
    have h3 : isArrJ (JVal.obj kvs) = false := rfl
    simp [normalizeShape, jsGetField, hdata, h1, h2, h3]
  rw [hnorm]
  simp only [entriesOf]
  rw [if_neg (by simpa [List.isEmpty_iff] using hne)]
  have hw := writeEntries_clean kvs [] (by simp) hnodup hnn
  rw [hw]
  simp only [List.nil_append]
  rw [if_neg (by simpa [List.length_eq_zero] using hne)]

/-- C4 counterexample: the scan records the offset of the LAST return to
depth zero, not the first, so for `{"a":1}x{"b":2}` nothing is truncated
(the last return to zero is at the very end), the strict and repaired
parses fail, and regex extraction collects the pairs of BOTH objects: the
restore succeeds but writes `{"a":1,"b":2}`, not exactly the pairs of the
leading object `{"a":1}`. -/
theorem c4_trunc_counterexample :
    restoreFromBackup [] (strL "\x7b\"a\":1\x7dx\x7b\"b\":2\x7d") =
      ([(strL "a", strL "1"), (strL "b", strL "2")], .ok true) ∧
    ([(strL "a", strL "1"), (strL "b", strL "2")] : Store) ≠
      [(strL "a", strL "1")] :=
  ⟨rfl, by decide⟩

/-- Helper: a balanced object text whose brace scan returns to depth zero
exactly at its end, followed by brace-free trailing text, restores exactly
the serialized pairs of the leading object. -/
theorem restore_object_trailing (i b : List Char)
    (kvs : List (List Char × JVal)) (store : Store)
    (hscan : scanBraces (('{' :: '"' :: i) ++ ['}']) 0 0 0 =
      (0, (('{' :: '"' :: i) ++ ['}']).length))
    (hb : ∀ c ∈ b, c ≠ '{' ∧ c ≠ '}')
    (hparse : jsonParse (('{' :: '"' :: i) ++ ['}']) = some (.obj kvs))
    (hdata : lookupKV kvs (strL "data") = none)
    (hne : kvs ≠ [])
    (hnodup : (kvs.map Prod.fst).Nodup)
    (hnn : ∀ kv ∈ kvs, isNullJ kv.2 = false) :
    restoreFromBackup store ((('{' :: '"' :: i) ++ ['}']) ++ b) =
      (restoredPairs kvs, .ok true) := by
  unfold restoreFromBackup
  rw [if_neg (by simp)]
  rw [preprocess_obj i b hscan hb]
  unfold parseLenient
  simp only [hparse]
  exact afterParse_obj store kvs hdata hne hnodup hnn

/-- C4 amended: the end-locating stage truncates at the offset where brace
depth LAST returns to zero (when that offset is positive and strictly
before the end); consequently, for every input consisting of a balanced
JSON object (brace depth returning to zero exactly at its end) followed by
brace-free trailing text, restore succeeds and restores exactly the pairs
of the leading object — e.g. `{"a":1}\nEOF marker` restores `a ↦ 1`. -/
theorem c4_trailing_text_amended (i b : List Char)
    (kvs : List (List Char × JVal)) (store : Store)
    (hscan : scanBraces (('{' :: '"' :: i) ++ ['}']) 0 0 0 =
      (0, (('{' :: '"' :: i) ++ ['}']).length))
    (hb : ∀ c ∈ b, c ≠ '{' ∧ c ≠ '}')
    (hparse : jsonParse (('{' :: '"' :: i) ++ ['}']) = some (.obj kvs))
    (hdata : lookupKV kvs (strL "data") = none)
    (hne : kvs ≠ [])
    (hnodup : (kvs.map Prod.fst).Nodup)
    (hnn : ∀ kv ∈ kvs, isNullJ kv.2 = false) :
    restoreFromBackup store ((('{' :: '"' :: i) ++ ['}']) ++ b) =
      (restoredPairs kvs, .ok true) :=
  restore_object_trailing i b kvs store hscan hb hparse hdata hne hnodup hnn

/-- Witness for C4's amended statement: the spec's own example input
`{"a":1}\nEOF marker` restores exactly `a ↦ 1` and succeeds. -/
theorem c4_trailing_text_amended_witness :
    restoreFromBackup [] (strL "\x7b\"a\":1\x7d\nEOF marker") =
      ([(strL "a", strL "1")], .ok true) := by
  have h := c4_trailing_text_amended (strL "a\":1") (strL "\nEOF marker")
    [(strL "a", JVal.num 1)] [] rfl (by decide) rfl rfl (by simp) (by simp)
    (by
      intro kv hkv
      rw [show kv = (strL "a", JVal.num 1) from by simpa using hkv]
      rfl)
  exact h

/-- Helper: inserting a fresh key appends the member. -/
theorem objInsert_append (ms : List (List Char × JVal)) (k : List Char)
    (v : JVal) (h : ∀ m ∈ ms, m.1 ≠ k) : objInsert ms k v = ms ++ [(k, v)] := by
  have hc : ms.any (fun kv => kv.1 = k) = false := by
    rw [List.any_eq_false]
    intro kv hkv
    simpa using h kv hkv
  simp [objInsert, hc]

/-- Helper: with distinct keys and truthy values, the backup fold is a
plain map. -/
theorem backupEntries_fold :
    ∀ (l : Store) (acc : List (List Char × JVal)),
      (l.map Prod.fst).Nodup →
      (∀ kv ∈ l, kv.2 ≠ []) →
      (∀ kv ∈ l, ∀ m ∈ acc, kv.1 ≠ m.1) →
      l.foldl (fun acc kv =>
          if kv.2 = [] then acc else objInsert acc kv.1 (parsedOrRaw kv.2)) acc
        = acc ++ backupMap l
  | [], acc, _, _, _ => by simp [backupMap]
  | (k, v) :: rest, acc, hnodup, hval, hdisj => by
    have hv : v ≠ [] := hval (k, v) (List.mem_cons_self _ _)
    rw [List.map_cons] at hnodup
    have hn := List.nodup_cons.mp hnodup
    have hins : objInsert acc k (parsedOrRaw v) = acc ++ [(k, parsedOrRaw v)] :=
      objInsert_append acc k _ (fun m hm =>
        Ne.symm (hdisj (k, v) (List.mem_cons_self _ _) m hm))
    have hrec := backupEntries_fold rest (acc ++ [(k, parsedOrRaw v)])
      hn.2
      (fun kv hkv => hval kv (List.mem_cons_of_mem _ hkv))
      (by
        intro kv hkv m hm
        rcases List.mem_append.mp hm with h2 | h2
        · exact hdisj kv (List.mem_cons_of_mem _ hkv) m h2
        · have heq : m = (k, parsedOrRaw v) := by simpa using h2
          rw [heq]
          intro he
          exact hn.1 (he ▸ List.mem_map.mpr ⟨kv, hkv, rfl⟩))
    simp only [List.foldl_cons, if_neg hv, hins]
    rw [hrec]
    simp [backupMap, List.append_assoc]

/-- Helper: under the same side conditions `backupEntries` is the map. -/
theorem backupEntries_eq_map (store : Store)
    (hnodup : (store.map Prod.fst).Nodup)
    (hval : ∀ kv ∈ store, kv.2 ≠ []) :
    backupEntries store = backupMap store := by
  have h := backupEntries_fold store [] hnodup hval (by simp)
  simpa [backupEntries] using h

/-- Helper: the serialization of a nonempty object starts with a brace and
a quote and ends with a brace. -/
theorem stringify_obj_shape (m : List Char × JVal)
    (ms : List (List Char × JVal)) :
    ∃ t, jsStringifyVal (.obj (m :: ms)) = ('{' :: '"' :: t) ++ ['}'] := by
  cases ms with
  | nil =>
    cases m with
    | mk k v => exact ⟨_, rfl⟩
  | cons m2 ms2 =>
    cases m with
    | mk k v => exact ⟨_, rfl⟩

/-- Helper: a canonical stored value is reproduced exactly by the restore
write step applied to its parsed-or-raw backup value. -/
theorem valueToStore_parsedOrRaw (v : List Char)
    (hc : canonicalValue v = true) : valueToStore (parsedOrRaw v) = v := by
  unfold canonicalValue at hc
  unfold parsedOrRaw
  cases hj : jsonParse v with
  | none => rfl
  | some j =>
    rw [hj] at hc
    simp only [Bool.and_eq_true, beq_iff_eq] at hc
    obtain ⟨⟨hnull, hstr⟩, heq⟩ := hc
    cases j with
    | null => simp [isNullJ] at hnull
    | str s => simp [isStrJ] at hstr
    | bool b => exact heq
    | num n => exact heq
    | arr es => exact heq
    | obj ms => exact heq

/-- Helper: restoring the backup map of a canonical store reproduces the
store. -/
theorem restoredPairs_backupMap (store : Store)
    (hval : ∀ kv ∈ store, canonicalValue kv.2 = true) :
    restoredPairs (backupMap store) = store := by
  induction store with
  | nil => rfl
  | cons s rest ih =>
    have h1 := valueToStore_parsedOrRaw s.2 (hval s (List.mem_cons_self _ _))
    simp only [restoredPairs, backupMap, List.map_cons, List.map_map] at *
    rw [h1, ih (fun kv hkv => hval kv (List.mem_cons_of_mem _ hkv))]

/-- C2 counterexample: the store `[("k","null")]` does not round-trip.  Its
backup is `{"k":null}`; on restore the parsed entry's value is null, so the
write loop skips it, zero writes succeed, and the restore fails with
`Failed to restore any items` after having cleared the store — the
key-space afterwards is empty, not equivalent to the original. -/
theorem c2_roundtrip_counterexample :
    createBackup [(strL "k", strL "null")] = strL "\x7b\"k\":null\x7d" ∧
    restoreFromBackup [(strL "k", strL "null")]
      (createBackup [(strL "k", strL "null")]) = ([], .error .restoreFailed) ∧
    ([] : Store) ≠ [(strL "k", strL "null")] :=
  ⟨rfl, rfl, by decide⟩

/-- Helper: a digit character is none of the parser's dispatch or
whitespace characters. -/
theorem isDigit_char_props (c : Char) (h : c.isDigit = true) :
    isJsonWS c = false ∧ c ≠ '{' ∧ c ≠ '[' ∧ c ≠ '"' ∧ c ≠ 't' ∧ c ≠ 'f' ∧
      c ≠ 'n' ∧ c ≠ '-' := by
  have hl : '0' ≤ c ∧ c ≤ '9' := by
    simpa [Char.isDigit] using h
  refine ⟨?_, ?_, ?_, ?_, ?_, ?_, ?_, ?_⟩
  · unfold isJsonWS
    have : c ≠ ' ' ∧ c ≠ '\t' ∧ c ≠ '\n' ∧ c ≠ '\r' := by
      refine ⟨?_, ?_, ?_, ?_⟩ <;>
        (intro he; rw [he] at h; exact absurd h (by decide))
    simp [this.1, this.2.1, this.2.2.1, this.2.2.2]
  all_goals intro he
  all_goals rw [he] at h
  all_goals exact absurd h (by decide)

/-- Helper: every character printed for a natural number is a digit, and
the digit list is nonempty. -/
theorem natToCharsCore_digits :
    ∀ (fuel n : Nat), n < fuel →
      natToCharsCore fuel n ≠ [] ∧
        ∀ c ∈ natToCharsCore fuel n, c.isDigit = true
  | 0, n, h => absurd h (by omega)
  | fuel + 1, n, h => by
    unfold natToCharsCore
    by_cases h10 : n < 10
    · rw [if_pos h10]
      refine ⟨by simp, ?_⟩
      intro c hc
      have hc2 : c = Char.ofNat ('0'.toNat + n) := by simpa using hc
      subst hc2
      interval_cases n <;> decide
    · rw [if_neg h10]
      have hrec := natToCharsCore_digits fuel (n / 10) (by omega)
      refine ⟨by simp [hrec.1], ?_⟩
      intro c hc
      rcases List.mem_append.mp hc with h1 | h1
      · exact hrec.2 c h1
      · have hc2 : c = Char.ofNat ('0'.toNat + n % 10) := by simpa using h1
        subst hc2
        have hm : n % 10 < 10 := Nat.mod_lt _ (by omega)
        interval_cases hmm : (n % 10) <;> decide

/-- Helper: the printed digits of a nonzero number start with a nonzero
digit. -/
theorem natToCharsCore_headI :
    ∀ (fuel n : Nat), n < fuel → n ≠ 0 →
      (natToCharsCore fuel n).headI ≠ '0'
  | 0, n, h, _ => absurd h (by omega)
  | fuel + 1, n, h, hnz => by
    unfold natToCharsCore
    by_cases h10 : n < 10
    · rw [if_pos h10]
      have h1 : 1 ≤ n := by omega
      interval_cases n <;> decide
    · rw [if_neg h10]
      have hrec1 := natToCharsCore_digits fuel (n / 10) (by omega)
      have hrec := natToCharsCore_headI fuel (n / 10) (by omega) (by omega)
      cases hc : natToCharsCore fuel (n / 10) with
      | nil => exact absurd hc hrec1.1
      | cons c t =>
        rw [hc] at hrec
        simpa using hrec

/-- Helper: folding the digit accumulator over printed digits recovers the
number. -/
theorem digitsToNat_natToCharsCore :
    ∀ (fuel n : Nat), n < fuel → digitsToNat (natToCharsCore fuel n) = n
  | 0, n, h => absurd h (by omega)
  | fuel + 1, n, h => by
    unfold natToCharsCore
    by_cases h10 : n < 10
    · rw [if_pos h10]
      unfold digitsToNat
      interval_cases n <;> decide
    · rw [if_neg h10]
      have hrec := digitsToNat_natToCharsCore fuel (n / 10) (by omega)
      unfold digitsToNat at *
      rw [List.foldl_append, hrec]
      have hm : n % 10 < 10 := Nat.mod_lt _ (by omega)
      have hch : (Char.ofNat ('0'.toNat + n % 10)).toNat - '0'.toNat = n % 10 := by
        interval_cases hmm : (n % 10) <;> decide
      simp only [List.foldl_cons, List.foldl_nil, hch]
      omega

/-- Helper: the digit run of printed digits followed by a digit-free rest
is exactly the printed digits. -/
theorem takeWhile_digits_append (a b : List Char)
    (ha : ∀ c ∈ a, c.isDigit = true)
    (hb : b = [] ∨ ∀ c t, b = c :: t → c.isDigit = false) :
    (a ++ b).takeWhile Char.isDigit = a ∧
      (a ++ b).dropWhile Char.isDigit = b := by
  induction a with
  | nil =>
    simp only [List.nil_append]
    rcases hb with h | h
    · subst h
      simp
    · cases b with
      | nil => simp
      | cons c t =>
        rw [List.takeWhile_cons, List.dropWhile_cons]
        simp [h c t rfl]
  | cons c a2 ih =>
    have hc : c.isDigit = true := ha c (List.mem_cons_self _ _)
    rw [List.cons_append, List.takeWhile_cons, List.dropWhile_cons]
    have := ih (fun x hx => ha x (List.mem_cons_of_mem _ hx))
    simp [hc, this.1, this.2]

/-- Helper: shape of a rest list accepted by `restOk`. -/
theorem restOk_cases (rest : List Char) (hr : restOk rest = true) :
    rest = [] ∨ ∃ c t, rest = c :: t ∧ c.isDigit = false ∧
      c ≠ '.' ∧ c ≠ 'e' ∧ c ≠ 'E' := by
  cases rest with
  | nil => exact Or.inl rfl
  | cons c t =>
    refine Or.inr ⟨c, t, rfl, ?_⟩
    unfold restOk at hr
    simp only [Bool.not_eq_true', Bool.or_eq_false_iff,
      decide_eq_false_iff_not] at hr
    exact ⟨hr.1.1.1, hr.1.1.2, hr.1.2, hr.2⟩

/-- Helper: the unsigned number parser inverts the digit printer. -/
theorem parseNumCore_print (n : Nat) (rest : List Char)
    (hrest : rest = [] ∨ ∃ c t, rest = c :: t ∧ c.isDigit = false) :
    parseNumCore (natToChars n ++ rest) = some (n, rest) := by
  by_cases h0 : n = 0
  · subst h0
    rcases hrest with h | ⟨c, t, hb, hd⟩
    · subst h
      rfl
    · subst hb
      show parseNumCore ('0' :: (c :: t)) = some (0, c :: t)
      simp [parseNumCore, hd]
  · obtain ⟨hne, hdig⟩ := natToCharsCore_digits (n + 1) n (by omega)
    cases hc : natToCharsCore (n + 1) n with
    | nil => exact absurd hc hne
    | cons c t =>
      have hcd : c.isDigit = true := by
        exact hdig c (by rw [hc]; exact List.mem_cons_self _ _)
      have hc0 : c ≠ '0' := by
        have hh := natToCharsCore_headI (n + 1) n (by omega) h0
        rw [hc] at hh
        simpa using hh
      have hdig2 : ∀ x ∈ c :: t, x.isDigit = true := by
        rw [← hc]
        exact hdig
      have htw := takeWhile_digits_append (c :: t) rest hdig2
        (by
          rcases hrest with h | ⟨c2, t2, hb, hd⟩
          · exact Or.inl h
          · refine Or.inr ?_
            intro c3 t3 he
            rw [hb] at he
            injection he with he1 he2
            rw [← he1]
            exact hd)
      show parseNumCore (natToChars n ++ rest) = some (n, rest)
      unfold natToChars
      rw [hc]
      simp only [List.cons_append, parseNumCore]
      rw [if_neg hc0, if_pos hcd]
      rw [← List.cons_append, htw.1, htw.2]
      have hd2 : digitsToNat (natToCharsCore (n + 1) n) = n :=
        digitsToNat_natToCharsCore (n + 1) n (by omega)
      rw [hc] at hd2
      rw [hd2]

/-- Helper: the number parser inverts the integer printer when the rest
cannot extend the number. -/
theorem parseNumber_print (m : Int) (rest : List Char)
    (hr : restOk rest = true) :
    parseNumber (intToChars m ++ rest) = some (m, rest) := by
  have hrc := restOk_cases rest hr
  have hrest : rest = [] ∨ ∃ c t, rest = c :: t ∧ c.isDigit = false := by
    rcases hrc with h | ⟨c, t, h1, h2, _⟩
    · exact Or.inl h
    · exact Or.inr ⟨c, t, h1, h2⟩
  have htrail : (if rest.headI = '.' ∨ rest.headI = 'e' ∨ rest.headI = 'E'
      then (none : Option (Int × List Char)) else some (m, rest)) =
      some (m, rest) := by
    rcases hrc with h | ⟨c, t, h1, _, h3, h4, h5⟩
    · subst h
      rfl
    · subst h1
      simp [List.headI, h3, h4, h5]
  have hsigned : (if (intToChars m ++ rest).headI = '-' then
        (parseNumCore (intToChars m ++ rest).tail).map
          (fun p => (-(p.1 : Int), p.2))
      else (parseNumCore (intToChars m ++ rest)).map
          (fun p => ((p.1 : Int), p.2))) = some (m, rest) := by
    by_cases hm : m < 0
    · have hic : intToChars m = '-' :: natToChars m.natAbs := by
        unfold intToChars
        rw [if_pos hm]
      rw [hic, List.cons_append]
      rw [if_pos (by simp [List.headI])]
      simp only [List.tail_cons]
      rw [parseNumCore_print m.natAbs rest hrest]
      show some ((-((m.natAbs : Nat) : Int), rest)) = some (m, rest)
      have hv : -((m.natAbs : Nat) : Int) = m := by omega
      rw [hv]
    · have hic : intToChars m = natToChars m.natAbs := by
        unfold intToChars
        rw [if_neg hm]
      obtain ⟨hne, hdig⟩ :=
        natToCharsCore_digits (m.natAbs + 1) m.natAbs (by omega)
      cases hc : natToCharsCore (m.natAbs + 1) m.natAbs with
      | nil => exact absurd hc hne
      | cons c t =>
        have hcd : c.isDigit = true := by
          exact hdig c (by rw [hc]; exact List.mem_cons_self _ _)
        have hcm : c ≠ '-' := (isDigit_char_props c hcd).2.2.2.2.2.2.2
        have hinp : intToChars m ++ rest = c :: (t ++ rest) := by
          rw [hic]
          unfold natToChars
          rw [hc]
          rfl
        rw [hinp]
        rw [if_neg (by simpa [List.headI] using hcm)]
        have hcore : parseNumCore (c :: (t ++ rest)) = some (m.natAbs, rest) := by
          rw [← List.cons_append, ← hc]
          show parseNumCore (natToCharsCore (m.natAbs + 1) m.natAbs ++ rest) = _
          exact parseNumCore_print m.natAbs rest hrest
        rw [hcore]
        show some (((m.natAbs : Nat) : Int), rest) = some (m, rest)
        have hv : ((m.natAbs : Nat) : Int) = m := by omega
        rw [hv]
  unfold parseNumber
  rw [hsigned]
  exact htrail

/-- Helper: a hexadecimal digit character decodes to its value. -/
theorem hexVal_hexDigit : ∀ x : Nat, x < 16 → hexVal (hexDigit x) = some x := by
  decide

/-- Helper: the escaped body of a string is at least one character per
source character plus the closing quote. -/
theorem foldEsc_length (s : List Char) :
    s.length + 1 ≤ (s.foldr (fun c acc => escChar c ++ acc) ['"']).length := by
  induction s with
  | nil => simp
  | cons c s2 ih =>
    have h1 : 1 ≤ (escChar c).length := by
      unfold escChar
      split_ifs <;> simp
    simp only [List.foldr_cons, List.length_append, List.length_cons]
    omega

/-- Helper: the string-body parser inverts the serializer's escaping. -/
theorem parseStrRest_esc :
    ∀ (s rest : List Char) (fuel : Nat), s.length < fuel →
      parseStrRest fuel (s.foldr (fun c acc => escChar c ++ acc) ['"'] ++ rest) =
        some (s, rest)
  | s, rest, 0, h => absurd h (by omega)
  | [], rest, fuel + 1, _ => by
    show parseStrRest (fuel + 1) ('"' :: rest) = some ([], rest)
    unfold parseStrRest
    rw [if_pos rfl]
  | c :: s2, rest, fuel + 1, h => by
    have ih := parseStrRest_esc s2 rest fuel (by
      simp only [List.length_cons] at h
      omega)
    show parseStrRest (fuel + 1)
        ((escChar c ++ s2.foldr (fun c acc => escChar c ++ acc) ['"']) ++ rest) =
      some (c :: s2, rest)
    rw [List.append_assoc]
    by_cases h1 : c = '"'
    · subst h1
      have he : escChar '"' = ['\\', '"'] := rfl
      rw [he]
      simp only [List.cons_append, List.nil_append]
      unfold parseStrRest
      rw [if_neg (by decide), if_pos rfl]
      simp [unescChar, ih]
    · by_cases h2 : c = '\\'
      · subst h2
        have he : escChar '\\' = ['\\', '\\'] := rfl
        rw [he]
        simp only [List.cons_append, List.nil_append]
        unfold parseStrRest
        rw [if_neg (by decide), if_pos rfl]
        simp [unescChar, ih]
      · by_cases h3 : c = '\n'
        · subst h3
          have he : escChar '\n' = ['\\', 'n'] := rfl
          rw [he]
          simp only [List.cons_append, List.nil_append]
          unfold parseStrRest
          rw [if_neg (by decide), if_pos rfl]
          simp [unescChar, ih]
        · by_cases h4 : c = '\t'
          · subst h4
            have he : escChar '\t' = ['\\', 't'] := rfl
            rw [he]
            simp only [List.cons_append, List.nil_append]
            unfold parseStrRest
            rw [if_neg (by decide), if_pos rfl]
            simp [unescChar, ih]
          · by_cases h5 : c = '\r'
            · subst h5
              have he : escChar '\r' = ['\\', 'r'] := rfl
              rw [he]
              simp only [List.cons_append, List.nil_append]
              unfold parseStrRest
              rw [if_neg (by decide), if_pos rfl]
              simp [unescChar, ih]
            · by_cases h6 : c = '\x08'
              · subst h6
                have he : escChar '\x08' = ['\\', 'b'] := rfl
                rw [he]
                simp only [List.cons_append, List.nil_append]
                unfold parseStrRest
                rw [if_neg (by decide), if_pos rfl]
                simp [unescChar, ih]
              · by_cases h7 : c = '\x0c'
                · subst h7
                  have he : escChar '\x0c' = ['\\', 'f'] := rfl
                  rw [he]
                  simp only [List.cons_append, List.nil_append]
                  unfold parseStrRest
                  rw [if_neg (by decide), if_pos rfl]
                  simp [unescChar, ih]
                · by_cases h8 : c.toNat < 0x20
                  · have he : escChar c =
                        ['\\', 'u', '0', '0', hexDigit (c.toNat / 16),
                         hexDigit (c.toNat % 16)] := by
                      unfold escChar
                      rw [if_neg h1, if_neg h2, if_neg h3, if_neg h4,
                        if_neg h5, if_neg h6, if_neg h7, if_pos h8]
                    rw [he]
                    simp only [List.cons_append, List.nil_append]
                    unfold parseStrRest
                    rw [if_neg (by decide), if_pos rfl]
                    have hhi := hexVal_hexDigit (c.toNat / 16) (by omega)
                    have hlo := hexVal_hexDigit (c.toNat % 16) (by omega)
                    have hv0 : hexVal '0' = some 0 := by decide
                    simp only [hhi, hlo, hv0]
                    have hn : ((0 * 16 + 0) * 16 + c.toNat / 16) * 16 +
                        c.toNat % 16 = c.toNat := by omega
                    rw [if_pos (by omega)]
                    rw [hn, Char.ofNat_toNat]
                    simp [ih]
                  · have he : escChar c = [c] := by
                      unfold escChar
                      rw [if_neg h1, if_neg h2, if_neg h3, if_neg h4,
                        if_neg h5, if_neg h6, if_neg h7, if_neg h8]
                    rw [he]
                    simp only [List.cons_append, List.nil_append]
                    unfold parseStrRest
                    rw [if_neg h1, if_neg h2, if_neg h8]
                    simp [ih]

/-- Helper: every serialized-size is positive. -/
theorem jsize_pos : ∀ j : JVal, 1 ≤ jsize j := by
  intro j
  cases j <;> simp [jsize]

/-- Helper: element sizes of a nonempty list are positive. -/
theorem jsizeList_pos (e : JVal) (tl : List JVal) : 1 ≤ jsizeList (e :: tl) := by
  simp [jsizeList]

/-- Helper: member sizes of a nonempty list are positive. -/
theorem jsizeMems_pos (k : List Char) (v : JVal)
    (tl : List (List Char × JVal)) : 1 ≤ jsizeMems ((k, v) :: tl) := by
  simp [jsizeMems]

/-- Helper: a digit character is also none of the closing delimiters. -/
theorem isDigit_not_delim (c : Char) (h : c.isDigit = true) :
    c ≠ ']' ∧ c ≠ '}' ∧ c ≠ ',' := by
  refine ⟨?_, ?_, ?_⟩
  all_goals intro he
  all_goals rw [he] at h
  all_goals exact absurd h (by decide)

/-- Helper: the first character of a serialized value is not whitespace
and not a closing delimiter. -/
theorem stringify_head_props (j : JVal) :
    ∃ c t, jsStringifyVal j = c :: t ∧ isJsonWS c = false ∧
      c ≠ ']' ∧ c ≠ '}' := by
  have pack : ∀ (c : Char) (t : List Char), jsStringifyVal j = c :: t →
      isJsonWS c = false ∧ c ≠ ']' ∧ c ≠ '}' →
      ∃ c t, jsStringifyVal j = c :: t ∧ isJsonWS c = false ∧
        c ≠ ']' ∧ c ≠ '}' :=
    fun c t he hp => ⟨c, t, he, hp.1, hp.2.1, hp.2.2⟩
  cases j with
  | null => exact pack 'n' _ rfl (by decide)
  | bool b =>
    cases b with
    | true => exact pack 't' _ rfl (by decide)
    | false => exact pack 'f' _ rfl (by decide)
  | num n =>
    by_cases hm : n < 0
    · refine pack '-' (natToChars n.natAbs) ?_ (by decide)
      show intToChars n = _
      unfold intToChars
      rw [if_pos hm]
    · obtain ⟨hne, hdig⟩ := natToCharsCore_digits (n.natAbs + 1) n.natAbs (by omega)
      cases hc : natToCharsCore (n.natAbs + 1) n.natAbs with
      | nil => exact absurd hc hne
      | cons c t =>
        have hcd : c.isDigit = true := by
          exact hdig c (by rw [hc]; exact List.mem_cons_self _ _)
        refine pack c t ?_ ⟨(isDigit_char_props c hcd).1,
          (isDigit_not_delim c hcd).1, (isDigit_not_delim c hcd).2.1⟩
        show intToChars n = _
        unfold intToChars
        rw [if_neg hm]
        unfold natToChars
        rw [hc]
  | str s => exact pack '"' _ rfl (by decide)
  | arr es =>
    refine pack '[' (stringifyElems es ++ [']']) ?_ (by decide)
    rw [jsStringifyVal]
  | obj ms =>
    refine pack '{' (stringifyMems ms ++ ['}']) ?_ (by decide)
    rw [jsStringifyVal]

/-- Helper: distinct keys across an append mean the middle key is fresh in
the prefix. -/
theorem noDupKeys_split :
    ∀ (acc : List (List Char × JVal)) (k : List Char) (v : JVal)
      (tl : List (List Char × JVal)),
      noDupKeys (acc ++ (k, v) :: tl) = true → ∀ m ∈ acc, m.1 ≠ k
  | [], _, _, _, _, m, hm => absurd hm (List.not_mem_nil m)
  | (k0, v0) :: acc2, k, v, tl, h, m, hm => by
    rw [List.cons_append] at h
    unfold noDupKeys at h
    simp only [Bool.and_eq_true, Bool.not_eq_true', List.any_eq_false] at h
    rcases List.mem_cons.mp hm with he | hm2
    · rw [he]
      have := h.1 (k, v) (by
        rw [List.mem_append]
        exact Or.inr (List.mem_cons_self _ _))
      intro he2
      apply this
      simp only [decide_eq_true_eq]
      exact he2.symm
    · exact noDupKeys_split acc2 k v tl h.2 m hm2

/-- Helper: one dispatch step of `parseValue` on input with a
non-whitespace head. -/
theorem parseValue_step (fuel : Nat) (c : Char) (r : List Char)
    (hws : isJsonWS c = false) :
    parseValue (fuel + 1) (c :: r) =
      (if c = '{' then
        match r.dropWhile isJsonWS with
        | '}' :: r2 => some (.obj [], r2)
        | r1 => parseMembers fuel r1 []
      else if c = '[' then
        match r.dropWhile isJsonWS with
        | ']' :: r2 => some (.arr [], r2)
        | r1 => parseElems fuel r1 []
      else if c = '"' then
        (parseStrRest (r.length + 1) r).map (fun p => (JVal.str p.1, p.2))
      else if c = 't' then
        match r with
        | 'r' :: 'u' :: 'e' :: r2 => some (.bool true, r2)
        | _ => none
      else if c = 'f' then
        match r with
        | 'a' :: 'l' :: 's' :: 'e' :: r2 => some (.bool false, r2)
        | _ => none
      else if c = 'n' then
        match r with
        | 'u' :: 'l' :: 'l' :: r2 => some (.null, r2)
        | _ => none
      else
        (parseNumber (c :: r)).map (fun p => (JVal.num p.1, p.2))) := by
  unfold parseValue
  rw [List.dropWhile_cons, if_neg (by simp [hws])]

/-- One-step unfolding of the member parser at a string-opening quote. -/
theorem parseMembers_step (fuel : Nat) (r : List Char)
    (acc : List (List Char × JVal)) :
    parseMembers (fuel + 1) ('"' :: r) acc =
      (match parseStrRest (r.length + 1) r with
       | none => none
       | some (k, r2) =>
         match r2.dropWhile isJsonWS with
         | ':' :: r3 =>
           match parseValue fuel r3 with
           | none => none
           | some (v, r4) =>
             match r4.dropWhile isJsonWS with
             | ',' :: r5 =>
               parseMembers fuel (r5.dropWhile isJsonWS) (objInsert acc k v)
             | '}' :: r5 => some (.obj (objInsert acc k v), r5)
             | _ => none
         | _ => none) := by
  rfl

mutual

/-- Helper: the value parser inverts the serializer on canonical values,
for any sufficient fuel and any rest that cannot extend the value. -/
theorem parseValue_print :
    ∀ (j : JVal) (rest : List Char) (fuel : Nat),
      jsize j ≤ fuel → restOk rest = true → canonKeys j = true →
      parseValue fuel (jsStringifyVal j ++ rest) = some (j, rest)
  | j, _, 0, hf, _, _ => absurd hf (by have := jsize_pos j; omega)
  | .null, rest, fuel + 1, _, _, _ => by
    show parseValue (fuel + 1) ('n' :: ('u' :: 'l' :: 'l' :: rest)) = _
    rw [parseValue_step fuel 'n' _ (by decide)]
    simp
  | .bool true, rest, fuel + 1, _, _, _ => by
    show parseValue (fuel + 1) ('t' :: ('r' :: 'u' :: 'e' :: rest)) = _
    rw [parseValue_step fuel 't' _ (by decide)]
    simp
  | .bool false, rest, fuel + 1, _, _, _ => by
    show parseValue (fuel + 1) ('f' :: ('a' :: 'l' :: 's' :: 'e' :: rest)) = _
    rw [parseValue_step fuel 'f' _ (by decide)]
    simp
  | .str s, rest, fuel + 1, _, _, _ => by
    show parseValue (fuel + 1)
        ('"' :: (s.foldr (fun c acc => escChar c ++ acc) ['"'] ++ rest)) = _
    rw [parseValue_step fuel '"' _ (by decide)]
    rw [if_neg (by decide), if_neg (by decide), if_pos rfl]
    rw [parseStrRest_esc s rest _ (by
      have h1 := foldEsc_length s
      simp only [List.length_append]
      omega)]
    rfl
  | .num n, rest, fuel + 1, _, hr, _ => by
    obtain ⟨c, t, hct, hws, _, _⟩ := stringify_head_props (.num n)
    have hcn : c = '-' ∨ c.isDigit = true := by
      have heq : jsStringifyVal (JVal.num n) = intToChars n := rfl
      rw [heq] at hct
      by_cases hm : n < 0
      · left
        have h2 : intToChars n = '-' :: natToChars n.natAbs := by
          unfold intToChars
          rw [if_pos hm]
        rw [h2] at hct
        exact (List.cons.injEq _ _ _ _ ▸ hct).1.symm
      · right
        obtain ⟨hne, hdig⟩ :=
          natToCharsCore_digits (n.natAbs + 1) n.natAbs (by omega)
        have h2 : intToChars n = natToCharsCore (n.natAbs + 1) n.natAbs := by
          unfold intToChars
          rw [if_neg hm]
          rfl
        rw [h2] at hct
        exact hdig c (by rw [hct]; exact List.mem_cons_self _ _)
    have hne6 : c ≠ '{' ∧ c ≠ '[' ∧ c ≠ '"' ∧ c ≠ 't' ∧ c ≠ 'f' ∧ c ≠ 'n' := by
      rcases hcn with h | h
      · subst h
        refine ⟨by decide, by decide, by decide, by decide, by decide, by decide⟩
      · have hp := isDigit_char_props c h
        exact ⟨hp.2.1, hp.2.2.1, hp.2.2.2.1, hp.2.2.2.2.1, hp.2.2.2.2.2.1,
          hp.2.2.2.2.2.2.1⟩
    have hstr : jsStringifyVal (JVal.num n) ++ rest = c :: (t ++ rest) := by
      rw [hct]
      rfl
    rw [hstr, parseValue_step fuel c _ hws]
    rw [if_neg hne6.1, if_neg hne6.2.1, if_neg hne6.2.2.1, if_neg hne6.2.2.2.1,
      if_neg hne6.2.2.2.2.1, if_neg hne6.2.2.2.2.2]
    rw [← List.cons_append, ← hct]
    show (parseNumber (intToChars n ++ rest)).map
        (fun p => (JVal.num p.1, p.2)) = _
    rw [parseNumber_print n rest hr]
    rfl
  | .arr [], rest, fuel + 1, _, _, _ => by
    show parseValue (fuel + 1) ('[' :: (']' :: rest)) = _
    rw [parseValue_step fuel '[' _ (by decide)]
    simp [List.dropWhile_cons, isJsonWS]
  | .arr (e :: tl), rest, fuel + 1, hf, hr, hc => by
    obtain ⟨c0, t0, hct, hws0, hne0, _⟩ := stringify_head_props e
    obtain ⟨t1, ht1⟩ : ∃ t1, stringifyElems (e :: tl) = c0 :: t1 := by
      cases tl with
      | nil =>
        refine ⟨t0, ?_⟩
        rw [stringifyElems]
        exact hct
      | cons e2 tl2 =>
        refine ⟨t0 ++ ',' :: stringifyElems (e2 :: tl2), ?_⟩
        rw [stringifyElems, hct]
        rfl
        exact fun hh => List.noConfusion hh
    have hshape : jsStringifyVal (.arr (e :: tl)) ++ rest =
        '[' :: (stringifyElems (e :: tl) ++ (']' :: rest)) := by
      rw [jsStringifyVal, List.cons_append, List.append_assoc]
      rfl
    rw [hshape, parseValue_step fuel '[' _ (by decide)]
    rw [if_neg (by decide), if_pos rfl]
    have hdw : (stringifyElems (e :: tl) ++ (']' :: rest)).dropWhile isJsonWS =
        stringifyElems (e :: tl) ++ (']' :: rest) := by
      rw [ht1, List.cons_append, List.dropWhile_cons]
      simp [hws0]
    rw [hdw, ht1, List.cons_append]
    have hred : (match c0 :: (t1 ++ ']' :: rest) with
        | ']' :: r2 => some (JVal.arr [], r2)
        | r1 => parseElems fuel r1 []) =
        parseElems fuel (c0 :: (t1 ++ ']' :: rest)) [] := by
      split
      · rename_i heq
        injection heq with heq1 _
        exact absurd heq1 hne0
      · rfl
    rw [hred, ← List.cons_append, ← ht1]
    have hfl : jsizeList (e :: tl) ≤ fuel := by
      unfold jsize at hf
      omega
    have hcl : canonKeysList (e :: tl) = true := by
      unfold canonKeys at hc
      exact hc
    exact parseElems_print (e :: tl) [] rest fuel (by simp) hfl hr hcl
  | .obj [], rest, fuel + 1, _, _, _ => by
    show parseValue (fuel + 1) ('{' :: ('}' :: rest)) = _
    rw [parseValue_step fuel '{' _ (by decide)]
    simp [List.dropWhile_cons, isJsonWS]
  | .obj ((k, v) :: tl), rest, fuel + 1, hf, hr, hc => by
    obtain ⟨t1, ht1⟩ : ∃ t1, stringifyMems ((k, v) :: tl) = '"' :: t1 := by
      cases tl with
      | nil =>
        refine ⟨k.foldr (fun c acc => escChar c ++ acc) ['"'] ++
          ':' :: jsStringifyVal v, ?_⟩
        rw [stringifyMems]
        rfl
      | cons m2 tl2 =>
        refine ⟨(k.foldr (fun c acc => escChar c ++ acc) ['"'] ++
          ':' :: jsStringifyVal v) ++ ',' :: stringifyMems (m2 :: tl2), ?_⟩
        rw [stringifyMems]
        rfl
        exact fun hh => List.noConfusion hh
    have hshape : jsStringifyVal (.obj ((k, v) :: tl)) ++ rest =
        '{' :: (stringifyMems ((k, v) :: tl) ++ ('}' :: rest)) := by
      rw [jsStringifyVal, List.cons_append, List.append_assoc]
      rfl
    rw [hshape, parseValue_step fuel '{' _ (by decide)]
    rw [if_pos rfl]
    have hdw : (stringifyMems ((k, v) :: tl) ++ ('}' :: rest)).dropWhile
        isJsonWS = stringifyMems ((k, v) :: tl) ++ ('}' :: rest) := by
      rw [ht1, List.cons_append, List.dropWhile_cons]
      simp [isJsonWS]
    rw [hdw, ht1, List.cons_append]
    have hred : (match '"' :: (t1 ++ '}' :: rest) with
        | '}' :: r2 => some (JVal.obj [], r2)
        | r1 => parseMembers fuel r1 []) =
        parseMembers fuel ('"' :: (t1 ++ '}' :: rest)) [] := by
      split
      · rename_i heq
        injection heq with heq1 _
        exact absurd heq1 (by decide)
      · rfl
    rw [hred, ← List.cons_append, ← ht1]
    have hck : noDupKeys ((k, v) :: tl) = true ∧
        canonKeysMems ((k, v) :: tl) = true := by
      unfold canonKeys at hc
      simpa [Bool.and_eq_true] using hc
    have hfm : jsizeMems ((k, v) :: tl) ≤ fuel := by
      unfold jsize at hf
      omega
    exact parseMembers_print ((k, v) :: tl) [] rest fuel (by simp) hfm hr
      hck.1 hck.2

/-- Helper: the element parser inverts the serializer on element lists. -/
theorem parseElems_print :
    ∀ (es : List JVal) (acc : List JVal) (rest : List Char) (fuel : Nat),
      es ≠ [] → jsizeList es ≤ fuel → restOk rest = true →
      canonKeysList es = true →
      parseElems fuel (stringifyElems es ++ ']' :: rest) acc =
        some (.arr (acc ++ es), rest)
  | [], _, _, _, hne, _, _, _ => absurd rfl hne
  | e :: tl, _, _, 0, _, hf, _, _ =>
    absurd hf (by have := jsizeList_pos e tl; omega)
  | e :: tl, acc, rest, fuel + 1, _, hf, hr, hc => by
    have hcc : canonKeys e = true ∧ canonKeysList tl = true := by
      unfold canonKeysList at hc
      simpa [Bool.and_eq_true] using hc
    have hmax : Nat.max (jsize e) (jsizeList tl) ≤ fuel := by
      unfold jsizeList at hf
      omega
    have hfe : jsize e ≤ fuel := le_trans (Nat.le_max_left _ _) hmax
    have hftl : jsizeList tl ≤ fuel := le_trans (Nat.le_max_right _ _) hmax
    unfold parseElems
    cases tl with
    | nil =>
      have hse : stringifyElems [e] = jsStringifyVal e := by
        rw [stringifyElems]
      rw [hse, parseValue_print e (']' :: rest) fuel hfe rfl hcc.1]
      simp [List.dropWhile_cons, isJsonWS]
    | cons e2 tl2 =>
      have hse : stringifyElems (e :: e2 :: tl2) =
          jsStringifyVal e ++ ',' :: stringifyElems (e2 :: tl2) := by
        rw [stringifyElems]
        exact fun hh => List.noConfusion hh
      rw [hse, List.append_assoc, List.cons_append]
      rw [parseValue_print e
        (',' :: (stringifyElems (e2 :: tl2) ++ ']' :: rest)) fuel hfe rfl hcc.1]
      simp only [List.dropWhile_cons, show isJsonWS ',' = false from rfl,
        Bool.false_eq_true, if_false]
      rw [parseElems_print (e2 :: tl2) (acc ++ [e]) rest fuel (by simp) hftl
        hr hcc.2]
      simp

/-- Helper: the member parser inverts the serializer on member lists whose
keys are globally distinct. -/
theorem parseMembers_print :
    ∀ (ms : List (List Char × JVal)) (acc : List (List Char × JVal))
      (rest : List Char) (fuel : Nat),
      ms ≠ [] → jsizeMems ms ≤ fuel → restOk rest = true →
      noDupKeys (acc ++ ms) = true → canonKeysMems ms = true →
      parseMembers fuel (stringifyMems ms ++ '}' :: rest) acc =
        some (.obj (acc ++ ms), rest)
  | [], _, _, _, hne, _, _, _, _ => absurd rfl hne
  | (k, v) :: tl, _, _, 0, _, hf, _, _, _ =>
    absurd hf (by have := jsizeMems_pos k v tl; omega)
  | (k, v) :: tl, acc, rest, fuel + 1, _, hf, hr, hnd, hc => by
    have hcc : canonKeys v = true ∧ canonKeysMems tl = true := by
      unfold canonKeysMems at hc
      simpa [Bool.and_eq_true] using hc
    have hmax : Nat.max (jsize v) (jsizeMems tl) ≤ fuel := by
      unfold jsizeMems at hf
      omega
    have hfv : jsize v ≤ fuel := le_trans (Nat.le_max_left _ _) hmax
    have hftl : jsizeMems tl ≤ fuel := le_trans (Nat.le_max_right _ _) hmax
    have hins : objInsert acc k v = acc ++ [(k, v)] :=
      objInsert_append acc k v (noDupKeys_split acc k v tl hnd)
    cases tl with
    | nil =>
      have hsm : stringifyMems [(k, v)] ++ '}' :: rest =
          '"' :: (k.foldr (fun c acc => escChar c ++ acc) ['"'] ++
            (':' :: (jsStringifyVal v ++ '}' :: rest))) := by
        rw [stringifyMems]
        show (escStr k ++ ':' :: jsStringifyVal v) ++ '}' :: rest = _
        rw [List.append_assoc]
        rfl
      rw [hsm, parseMembers_step]
      rw [parseStrRest_esc k (':' :: (jsStringifyVal v ++ '}' :: rest)) _ (by
        have h1 := foldEsc_length k
        simp only [List.length_append]
        omega)]
      simp only [List.dropWhile_cons, show isJsonWS ':' = false from rfl,
        Bool.false_eq_true, if_false]
      rw [parseValue_print v ('}' :: rest) fuel hfv rfl hcc.1]
      simp only [List.dropWhile_cons, show isJsonWS '}' = false from rfl,
        Bool.false_eq_true, if_false]
      rw [hins]
    | cons m2 tl2 =>
      have hsm : stringifyMems ((k, v) :: m2 :: tl2) ++ '}' :: rest =
          '"' :: (k.foldr (fun c acc => escChar c ++ acc) ['"'] ++
            (':' :: (jsStringifyVal v ++
              (',' :: (stringifyMems (m2 :: tl2) ++ '}' :: rest))))) := by
        rw [stringifyMems]
        show (escStr k ++ ':' :: jsStringifyVal v ++
            ',' :: stringifyMems (m2 :: tl2)) ++ '}' :: rest = _
        rw [List.append_assoc, List.append_assoc]
        rfl
        exact fun hh => List.noConfusion hh
      rw [hsm, parseMembers_step]
      rw [parseStrRest_esc k _ _ (by
        have h1 := foldEsc_length k
        simp only [List.length_append]
        omega)]
      simp only [List.dropWhile_cons, show isJsonWS ':' = false from rfl,
        Bool.false_eq_true, if_false]
      rw [parseValue_print v
        (',' :: (stringifyMems (m2 :: tl2) ++ '}' :: rest)) fuel hfv rfl hcc.1]
      simp only [List.dropWhile_cons, show isJsonWS ',' = false from rfl,
        Bool.false_eq_true, if_false]
      rw [hins]
      have hdw2 : (stringifyMems (m2 :: tl2) ++ '}' :: rest).dropWhile
          isJsonWS = stringifyMems (m2 :: tl2) ++ '}' :: rest := by
        obtain ⟨k2, v2⟩ := m2
        have hh : ∃ t2, stringifyMems ((k2, v2) :: tl2) = '"' :: t2 := by
          cases tl2 with
          | nil =>
            refine ⟨k2.foldr (fun c acc => escChar c ++ acc) ['"'] ++
              ':' :: jsStringifyVal v2, ?_⟩
            rw [stringifyMems]
            rfl
          | cons m3 tl3 =>
            refine ⟨(k2.foldr (fun c acc => escChar c ++ acc) ['"'] ++
              ':' :: jsStringifyVal v2) ++ ',' :: stringifyMems (m3 :: tl3), ?_⟩
            rw [stringifyMems]
            rfl
            exact fun hh => List.noConfusion hh
        obtain ⟨t2, ht2⟩ := hh
        rw [ht2, List.cons_append, List.dropWhile_cons]
        simp [isJsonWS]
      rw [hdw2]
      rw [parseMembers_print (m2 :: tl2) (acc ++ [(k, v)]) rest fuel (by simp)
        hftl hr (by rw [List.append_assoc]; exact hnd) hcc.2]
      simp

end

mutual

/-- Helper: the parser fuel bound of a value is at most the length of its
serialization. -/
theorem jsize_le_length : ∀ j : JVal, jsize j ≤ (jsStringifyVal j).length
  | .null => by decide
  | .bool true => by decide
  | .bool false => by decide
  | .num n => by
    obtain ⟨c, t, hct, _, _, _⟩ := stringify_head_props (.num n)
    rw [hct]
    simp [jsize]
  | .str s => by
    have h := foldEsc_length s
    show jsize (.str s) ≤ (escStr s).length
    simp only [jsize, escStr, List.length_cons]
    omega
  | .arr es => by
    have hb := jsizeList_le_length es
    show 1 + jsizeList es ≤ ('[' :: (stringifyElems es ++ [']'])).length
    simp only [List.length_cons, List.length_append]
    omega
  | .obj ms => by
    have hb := jsizeMems_le_length ms
    show 1 + jsizeMems ms ≤ ('{' :: (stringifyMems ms ++ ['}'])).length
    simp only [List.length_cons, List.length_append]
    omega

/-- Helper: the element-list fuel bound is at most one more than the length
of the serialized elements. -/
theorem jsizeList_le_length :
    ∀ es : List JVal, jsizeList es ≤ (stringifyElems es).length + 1
  | [] => by simp [jsizeList, stringifyElems]
  | [e] => by
    have h := jsize_le_length e
    have he : stringifyElems [e] = jsStringifyVal e := by
      rw [stringifyElems]
    rw [he]
    show 1 + Nat.max (jsize e) (jsizeList []) ≤ _
    have h0 : jsizeList ([] : List JVal) = 0 := rfl
    rw [h0]
    have hmx : Nat.max (jsize e) 0 ≤ (jsStringifyVal e).length :=
      Nat.max_le.mpr ⟨h, Nat.zero_le _⟩
    omega
  | e :: e2 :: es => by
    have h1 := jsize_le_length e
    have h2 := jsizeList_le_length (e2 :: es)
    have he : stringifyElems (e :: e2 :: es) =
        jsStringifyVal e ++ ',' :: stringifyElems (e2 :: es) := by
      rw [stringifyElems]
      exact fun hh => List.noConfusion hh
    rw [he]
    show 1 + Nat.max (jsize e) (jsizeList (e2 :: es)) ≤ _
    simp only [List.length_append, List.length_cons]
    have hm : Nat.max (jsize e) (jsizeList (e2 :: es)) ≤
        (jsStringifyVal e).length + ((stringifyElems (e2 :: es)).length + 1) := by
      apply Nat.max_le.mpr
      constructor
      · omega
      · omega
    omega

/-- Helper: the member-list fuel bound is at most one more than the length
of the serialized members. -/
theorem jsizeMems_le_length :
    ∀ ms : List (List Char × JVal),
      jsizeMems ms ≤ (stringifyMems ms).length + 1
  | [] => by simp [jsizeMems, stringifyMems]
  | [(k, v)] => by
    have h := jsize_le_length v
    have he : stringifyMems [(k, v)] = escStr k ++ ':' :: jsStringifyVal v := by
      rw [stringifyMems]
    rw [he]
    show 1 + Nat.max (jsize v) (jsizeMems []) ≤ _
    have h0 : jsizeMems ([] : List (List Char × JVal)) = 0 := rfl
    rw [h0]
    have hmx : Nat.max (jsize v) 0 ≤ (jsStringifyVal v).length :=
      Nat.max_le.mpr ⟨h, Nat.zero_le _⟩
    simp only [List.length_append, List.length_cons]
    omega
  | (k, v) :: m2 :: ms => by
    have h1 := jsize_le_length v
    have h2 := jsizeMems_le_length (m2 :: ms)
    have he : stringifyMems ((k, v) :: m2 :: ms) =
        escStr k ++ ':' :: jsStringifyVal v ++ ',' :: stringifyMems (m2 :: ms) := by
      rw [stringifyMems]
      exact fun hh => List.noConfusion hh
    rw [he]
    show 1 + Nat.max (jsize v) (jsizeMems (m2 :: ms)) ≤ _
    simp only [List.length_append, List.length_cons]
    have hm : Nat.max (jsize v) (jsizeMems (m2 :: ms)) ≤
        (jsStringifyVal v).length + ((stringifyMems (m2 :: ms)).length + 1) := by
      apply Nat.max_le.mpr
      constructor
      · omega
      · omega
    omega

end

/-- Helper: `JSON.parse` inverts `JSON.stringify` on every value whose
object member keys are pairwise distinct at every level. -/
theorem jsonParse_print (j : JVal) (hc : canonKeys j = true) :
    jsonParse (jsStringifyVal j) = some j := by
  have h := parseValue_print j [] ((jsStringifyVal j).length + 1)
    (le_trans (jsize_le_length j) (by omega)) rfl hc
  rw [List.append_nil] at h
  unfold jsonParse
  rw [h]
  simp

/-- Helper: replacing a key's value in place keeps every member's key. -/
theorem fst_replace (k : List Char) (v : JVal) (kv : List Char × JVal) :
    ((if kv.1 = k then (k, v) else kv) : List Char × JVal).1 = kv.1 := by
  split
  · rename_i h
    exact h.symm
  · rfl

/-- Helper: the in-place replacement map of `objInsert` does not change
which keys occur. -/
theorem any_key_replace (k : List Char) (v : JVal) (key : List Char) :
    ∀ ms : List (List Char × JVal),
      (ms.map (fun kv => if kv.1 = k then (k, v) else kv)).any
          (fun m => m.1 = key) =
        ms.any (fun m => m.1 = key)
  | [] => rfl
  | kv :: tl => by
    simp only [List.map_cons, List.any_cons, fst_replace,
      any_key_replace k v key tl]

/-- Helper: the in-place replacement map of `objInsert` preserves key
distinctness. -/
theorem noDupKeys_replace (k : List Char) (v : JVal) :
    ∀ ms : List (List Char × JVal),
      noDupKeys (ms.map (fun kv => if kv.1 = k then (k, v) else kv)) =
        noDupKeys ms
  | [] => rfl
  | (k0, v0) :: tl => by
    by_cases h0 : k0 = k
    · have hhead : (if ((k0, v0) : List Char × JVal).1 = k then (k, v)
          else (k0, v0)) = (k, v) := if_pos h0
      rw [List.map_cons, hhead]
      simp only [noDupKeys, any_key_replace, noDupKeys_replace k v tl]
      rw [h0]
    · have hhead : (if ((k0, v0) : List Char × JVal).1 = k then (k, v)
          else (k0, v0)) = (k0, v0) := if_neg h0
      rw [List.map_cons, hhead]
      simp only [noDupKeys, any_key_replace, noDupKeys_replace k v tl]

/-- Helper: appending a genuinely new key preserves key distinctness. -/
theorem noDupKeys_append_single (k : List Char) (v : JVal) :
    ∀ ms : List (List Char × JVal), noDupKeys ms = true →
      ms.any (fun kv => kv.1 = k) = false →
      noDupKeys (ms ++ [(k, v)]) = true
  | [], _, _ => rfl
  | (k0, v0) :: tl, hnd, hany => by
    have hnds : (!(tl.any (fun m => m.1 = k0)) && noDupKeys tl) = true := hnd
    rw [Bool.and_eq_true, Bool.not_eq_true', List.any_eq_false] at hnds
    have hanys : ∀ kv ∈ (k0, v0) :: tl, kv.1 ≠ k := by
      intro kv hkv
      have h2 : (((k0, v0) :: tl).any fun kv => decide (kv.1 = k)) = false :=
        hany
      rw [List.any_eq_false] at h2
      simpa using h2 kv hkv
    show (!((tl ++ [(k, v)]).any (fun m => m.1 = k0)) &&
      noDupKeys (tl ++ [(k, v)])) = true
    rw [Bool.and_eq_true, Bool.not_eq_true', List.any_eq_false]
    constructor
    · intro m hm
      rcases List.mem_append.mp hm with h | h
      · exact hnds.1 m h
      · have hmk : m = (k, v) := by simpa using h
        subst hmk
        have hk0 : k0 ≠ k := hanys (k0, v0) (List.mem_cons_self _ _)
        simp only [decide_eq_true_eq]
        intro he
        exact hk0 he.symm
    · apply noDupKeys_append_single k v tl hnds.2
      rw [List.any_eq_false]
      intro kv hkv
      exact fun hh => hanys kv (List.mem_cons_of_mem _ hkv) (by simpa using hh)

/-- Helper: `objInsert` preserves key distinctness. -/
theorem noDupKeys_objInsert (ms : List (List Char × JVal)) (k : List Char)
    (v : JVal) (h : noDupKeys ms = true) :
    noDupKeys (objInsert ms k v) = true := by
  unfold objInsert
  split
  · rw [noDupKeys_replace]
    exact h
  · rename_i hany
    exact noDupKeys_append_single k v ms h (by
      rw [Bool.not_eq_true] at hany
      exact hany)

/-- Helper: canonicality of member values over an appended list. -/
theorem canonKeysMems_append :
    ∀ a b : List (List Char × JVal),
      canonKeysMems (a ++ b) = (canonKeysMems a && canonKeysMems b)
  | [], b => by simp [canonKeysMems]
  | (k0, v0) :: tl, b => by
    simp only [List.cons_append, canonKeysMems, List.append_eq,
      canonKeysMems_append tl b, Bool.and_assoc]

/-- Helper: canonicality of array elements over an appended list. -/
theorem canonKeysList_append :
    ∀ a b : List JVal,
      canonKeysList (a ++ b) = (canonKeysList a && canonKeysList b)
  | [], b => by simp [canonKeysList]
  | e :: tl, b => by
    simp only [List.cons_append, canonKeysList, List.append_eq,
      canonKeysList_append tl b, Bool.and_assoc]

/-- Helper: `objInsert` preserves canonicality of the member values. -/
theorem canonKeysMems_objInsert (ms : List (List Char × JVal))
    (k : List Char) (v : JVal) (hm : canonKeysMems ms = true)
    (hv : canonKeys v = true) :
    canonKeysMems (objInsert ms k v) = true := by
  unfold objInsert
  split
  · clear * - hm hv
    induction ms with
    | nil => rfl
    | cons m tl ih =>
      obtain ⟨k0, v0⟩ := m
      have hm2 : (canonKeys v0 && canonKeysMems tl) = true := hm
      rw [Bool.and_eq_true] at hm2
      by_cases h0 : k0 = k
      · have hhead : (if ((k0, v0) : List Char × JVal).1 = k then (k, v)
            else (k0, v0)) = (k, v) := if_pos h0
        rw [List.map_cons, hhead]
        show (canonKeys v && canonKeysMems (tl.map _)) = true
        rw [Bool.and_eq_true]
        exact ⟨hv, ih hm2.2⟩
      · have hhead : (if ((k0, v0) : List Char × JVal).1 = k then (k, v)
            else (k0, v0)) = (k0, v0) := if_neg h0
        rw [List.map_cons, hhead]
        show (canonKeys v0 && canonKeysMems (tl.map _)) = true
        rw [Bool.and_eq_true]
        exact ⟨hm2.1, ih hm2.2⟩
  · rw [canonKeysMems_append, Bool.and_eq_true]
    exact ⟨hm, by
      show (canonKeys v && canonKeysMems []) = true
      rw [Bool.and_eq_true]
      exact ⟨hv, rfl⟩⟩


mutual

/-- Helper: every value produced by the value parser has pairwise distinct
object keys at every level. -/
theorem parseValue_canon :
    ∀ (fuel : Nat) (l : List Char) (j : JVal) (r : List Char),
      parseValue fuel l = some (j, r) → canonKeys j = true
  | 0, l, j, r, h => by simp [parseValue] at h
  | fuel + 1, l, j, r, h => by
    unfold parseValue at h
    split at h
    · exact Option.noConfusion h
    · split_ifs at h
      · split at h
        · simp only [Option.some.injEq, Prod.mk.injEq] at h
          rw [← h.1]
          rfl
        · exact parseMembers_canon fuel _ [] _ _ rfl rfl h
      · split at h
        · simp only [Option.some.injEq, Prod.mk.injEq] at h
          rw [← h.1]
          rfl
        · exact parseElems_canon fuel _ [] _ _ rfl h
      · rw [Option.map_eq_some'] at h
        obtain ⟨p, _, heq⟩ := h
        simp only [Prod.mk.injEq] at heq
        rw [← heq.1]
        rfl
      · split at h
        · simp only [Option.some.injEq, Prod.mk.injEq] at h
          rw [← h.1]
          rfl
        · exact Option.noConfusion h
      · split at h
        · simp only [Option.some.injEq, Prod.mk.injEq] at h
          rw [← h.1]
          rfl
        · exact Option.noConfusion h
      · split at h
        · simp only [Option.some.injEq, Prod.mk.injEq] at h
          rw [← h.1]
          rfl
        · exact Option.noConfusion h
      · rw [Option.map_eq_some'] at h
        obtain ⟨p, _, heq⟩ := h
        simp only [Prod.mk.injEq] at heq
        rw [← heq.1]
        rfl

/-- Helper: every object assembled by the member parser from a
distinct-keyed, canonical accumulator is canonical. -/
theorem parseMembers_canon :
    ∀ (fuel : Nat) (l : List Char) (acc : List (List Char × JVal))
      (j : JVal) (r : List Char),
      noDupKeys acc = true → canonKeysMems acc = true →
      parseMembers fuel l acc = some (j, r) → canonKeys j = true
  | 0, l, acc, j, r, _, _, h => by simp [parseMembers] at h
  | fuel + 1, l, acc, j, r, hnd, hcm, h => by
    unfold parseMembers at h
    split at h
    · split at h
      · exact Option.noConfusion h
      · rename_i k r2 heqk
        split at h
        · split at h
          · exact Option.noConfusion h
          · rename_i v r4 heqv
            have hv := parseValue_canon fuel _ v r4 heqv
            split at h
            · exact parseMembers_canon fuel _ _ _ _
                (noDupKeys_objInsert acc k v hnd)
                (canonKeysMems_objInsert acc k v hcm hv) h
            · simp only [Option.some.injEq, Prod.mk.injEq] at h
              rw [← h.1]
              show (noDupKeys (objInsert acc k v) &&
                canonKeysMems (objInsert acc k v)) = true
              rw [Bool.and_eq_true]
              exact ⟨noDupKeys_objInsert acc k v hnd,
                canonKeysMems_objInsert acc k v hcm hv⟩
            · exact Option.noConfusion h
        · exact Option.noConfusion h
    · exact Option.noConfusion h

/-- Helper: every array assembled by the element parser from a canonical
accumulator is canonical. -/
theorem parseElems_canon :
    ∀ (fuel : Nat) (l : List Char) (acc : List JVal) (j : JVal)
      (r : List Char),
      canonKeysList acc = true →
      parseElems fuel l acc = some (j, r) → canonKeys j = true
  | 0, l, acc, j, r, _, h => by simp [parseElems] at h
  | fuel + 1, l, acc, j, r, hacc, h => by
    unfold parseElems at h
    split at h
    · exact Option.noConfusion h
    · rename_i v r1 heqv
      have hv := parseValue_canon fuel l v r1 heqv
      have hacc2 : canonKeysList (acc ++ [v]) = true := by
        rw [canonKeysList_append, Bool.and_eq_true]
        refine ⟨hacc, ?_⟩
        show (canonKeys v && canonKeysList []) = true
        rw [Bool.and_eq_true]
        exact ⟨hv, rfl⟩
      split at h
      · exact parseElems_canon fuel _ _ _ _ hacc2 h
      · simp only [Option.some.injEq, Prod.mk.injEq] at h
        rw [← h.1]
        exact hacc2
      · exact Option.noConfusion h

end

/-- Helper: every value returned by `JSON.parse` has pairwise distinct
object keys at every level (duplicate source keys collapse on insertion). -/
theorem jsonParse_canon (s : List Char) (j : JVal)
    (h : jsonParse s = some j) : canonKeys j = true := by
  unfold jsonParse at h
  split at h
  · rename_i v rest heq
    split_ifs at h
    · simp only [Option.some.injEq] at h
      rw [← h]
      exact parseValue_canon _ s v rest heq
  · exact Option.noConfusion h

/-- Helper: a `Nodup` key list gives `noDupKeys`. -/
theorem nodup_imp_noDupKeys :
    ∀ ms : List (List Char × JVal), (ms.map Prod.fst).Nodup →
      noDupKeys ms = true
  | [], _ => rfl
  | (k0, v0) :: tl, h => by
    rw [List.map_cons, List.nodup_cons] at h
    show (!(tl.any (fun m => m.1 = k0)) && noDupKeys tl) = true
    rw [Bool.and_eq_true, Bool.not_eq_true', List.any_eq_false]
    refine ⟨?_, nodup_imp_noDupKeys tl h.2⟩
    intro m hm
    simp only [decide_eq_true_eq]
    intro he
    have hmem : m.1 ∈ tl.map Prod.fst := List.mem_map_of_mem Prod.fst hm
    rw [he] at hmem
    exact h.1 hmem

/-- Helper: the parsed-or-raw value of any stored string is canonical in its
object keys. -/
theorem canonKeys_parsedOrRaw (v : List Char) :
    canonKeys (parsedOrRaw v) = true := by
  unfold parsedOrRaw
  split
  · rename_i j hj
    exact jsonParse_canon v j hj
  · rfl

/-- Helper: the backup map is canonical in its object keys. -/
theorem canonKeysMems_backupMap (store : Store) :
    canonKeysMems (backupMap store) = true := by
  unfold backupMap
  induction store with
  | nil => rfl
  | cons kv tl ih =>
    rw [List.map_cons]
    show (canonKeys (parsedOrRaw kv.2) && canonKeysMems (tl.map _)) = true
    rw [Bool.and_eq_true]
    exact ⟨canonKeys_parsedOrRaw kv.2, ih⟩

/-- Helper: the platform parse of a generated backup text recovers the
backup object, whenever the store keys are distinct and values nonempty. -/
theorem jsonParse_createBackup (store : Store)
    (hnodup : (store.map Prod.fst).Nodup)
    (hvne : ∀ kv ∈ store, kv.2 ≠ []) :
    jsonParse (createBackup store) = some (.obj (backupEntries store)) := by
  have hmap : backupEntries store = backupMap store :=
    backupEntries_eq_map store hnodup hvne
  have hkeys : (backupMap store).map Prod.fst = store.map Prod.fst := by
    unfold backupMap
    rw [List.map_map]
    rfl
  have hcanon : canonKeys (.obj (backupEntries store)) = true := by
    show (noDupKeys (backupEntries store) &&
      canonKeysMems (backupEntries store)) = true
    rw [Bool.and_eq_true, hmap]
    exact ⟨nodup_imp_noDupKeys _ (by rw [hkeys]; exact hnodup),
      canonKeysMems_backupMap store⟩
  exact jsonParse_print (.obj (backupEntries store)) hcanon

/-- Helper: hexadecimal digit characters are never braces. -/
theorem hexDigit_not_brace (n : Nat) (h : n < 16) :
    hexDigit n ≠ '{' ∧ hexDigit n ≠ '}' := by
  interval_cases n <;> exact ⟨by decide, by decide⟩

/-- Helper: escaping a non-brace character produces no braces. -/
theorem escChar_not_brace (c : Char) (h : c ≠ '{' ∧ c ≠ '}') :
    ∀ c' ∈ escChar c, c' ≠ '{' ∧ c' ≠ '}' := by
  intro c' hc'
  unfold escChar at hc'
  split_ifs at hc' with h1 h2 h3 h4 h5 h6 h7 h8
  case pos | pos | pos | pos | pos | pos | pos =>
    simp only [List.mem_cons, List.not_mem_nil, or_false] at hc'
    rcases hc' with h | h <;> (subst h; exact ⟨by decide, by decide⟩)
  case pos =>
    simp only [List.mem_cons, List.not_mem_nil, or_false] at hc'
    rcases hc' with h | h | h | h | h | h
    · subst h; exact ⟨by decide, by decide⟩
    · subst h; exact ⟨by decide, by decide⟩
    · subst h; exact ⟨by decide, by decide⟩
    · subst h; exact ⟨by decide, by decide⟩
    · subst h; exact hexDigit_not_brace _ (by omega)
    · subst h; exact hexDigit_not_brace _ (Nat.mod_lt _ (by decide))
  case neg =>
    have hc2 : c' = c := by simpa using hc'
    subst hc2
    exact h

/-- Helper: the escaped body of a brace-free string contains no braces. -/
theorem foldEsc_not_brace :
    ∀ s : List Char, (∀ c ∈ s, c ≠ '{' ∧ c ≠ '}') →
      ∀ c' ∈ s.foldr (fun c acc => escChar c ++ acc) ['"'],
        c' ≠ '{' ∧ c' ≠ '}'
  | [], _, c', hc' => by
    have : c' = '"' := by simpa using hc'
    subst this
    exact ⟨by decide, by decide⟩
  | c :: tl, h, c', hc' => by
    rw [List.foldr_cons, List.mem_append] at hc'
    rcases hc' with hm | hm
    · exact escChar_not_brace c (h c (List.mem_cons_self _ _)) c' hm
    · exact foldEsc_not_brace tl (fun x hx => h x (List.mem_cons_of_mem _ hx))
        c' hm

/-- Helper: the JSON string literal of a brace-free string contains no
braces. -/
theorem escStr_not_brace (s : List Char)
    (h : ∀ c ∈ s, c ≠ '{' ∧ c ≠ '}') :
    ∀ c' ∈ escStr s, c' ≠ '{' ∧ c' ≠ '}' := by
  intro c' hc'
  unfold escStr at hc'
  rcases List.mem_cons.mp hc' with he | hm
  · subst he
    exact ⟨by decide, by decide⟩
  · exact foldEsc_not_brace s h c' hm

/-- Helper: every character of serialized object members comes from a
member key literal, a member value serialization, or is a separator. -/
theorem mem_stringifyMems :
    ∀ (ms : List (List Char × JVal)) (c : Char), c ∈ stringifyMems ms →
      (∃ m ∈ ms, c ∈ escStr m.1 ∨ c ∈ jsStringifyVal m.2) ∨ c = ':' ∨ c = ','
  | [], c, hc => absurd hc (List.not_mem_nil c)
  | [(k, v)], c, hc => by
    have hc2 : c ∈ escStr k ++ ':' :: jsStringifyVal v := by
      have he : stringifyMems [(k, v)] = escStr k ++ ':' :: jsStringifyVal v := by
        rw [stringifyMems]
      rw [← he]
      exact hc
    rw [List.mem_append, List.mem_cons] at hc2
    rcases hc2 with hm | he | hm
    · exact Or.inl ⟨(k, v), List.mem_cons_self _ _, Or.inl hm⟩
    · exact Or.inr (Or.inl he)
    · exact Or.inl ⟨(k, v), List.mem_cons_self _ _, Or.inr hm⟩
  | (k, v) :: m2 :: tl, c, hc => by
    have hc2 : c ∈ escStr k ++ ':' :: jsStringifyVal v ++
        ',' :: stringifyMems (m2 :: tl) := by
      have he : stringifyMems ((k, v) :: m2 :: tl) =
          escStr k ++ ':' :: jsStringifyVal v ++
            ',' :: stringifyMems (m2 :: tl) := by
        rw [stringifyMems]
        exact fun hh => List.noConfusion hh
      rw [← he]
      exact hc
    rw [List.mem_append, List.mem_append, List.mem_cons, List.mem_cons] at hc2
    rcases hc2 with (hm | he | hm) | he | hm
    · exact Or.inl ⟨(k, v), List.mem_cons_self _ _, Or.inl hm⟩
    · exact Or.inr (Or.inl he)
    · exact Or.inl ⟨(k, v), List.mem_cons_self _ _, Or.inr hm⟩
    · exact Or.inr (Or.inr he)
    · rcases mem_stringifyMems (m2 :: tl) c hm with ⟨m, hmm, hor⟩ | hsep
      · exact Or.inl ⟨m, List.mem_cons_of_mem _ hmm, hor⟩
      · exact Or.inr hsep

/-- Helper: the serialization of the parsed-or-raw value of a brace-free
canonical stored string contains no braces. -/
theorem stringify_parsedOrRaw_not_brace (v : List Char)
    (hv : ∀ c ∈ v, c ≠ '{' ∧ c ≠ '}') (hcan : canonicalValue v = true) :
    ∀ c ∈ jsStringifyVal (parsedOrRaw v), c ≠ '{' ∧ c ≠ '}' := by
  cases hj : jsonParse v with
  | none =>
    have hp : parsedOrRaw v = .str v := by
      unfold parsedOrRaw
      rw [hj]
    rw [hp]
    exact fun c hc => escStr_not_brace v hv c hc
  | some j =>
    have hp : parsedOrRaw v = j := by
      unfold parsedOrRaw
      rw [hj]
    have hcan2 : (!isNullJ j && !isStrJ j && (jsStringifyVal j == v)) = true := by
      unfold canonicalValue at hcan
      rw [hj] at hcan
      exact hcan
    rw [Bool.and_eq_true, Bool.and_eq_true] at hcan2
    have hser : jsStringifyVal j = v := eq_of_beq hcan2.2
    rw [hp, hser]
    exact hv

/-- Helper: the brace scan of a backup generated from a brace-free store
with distinct keys, nonempty values and canonical values returns to depth
zero exactly at the end of the text. -/
theorem scanBraces_createBackup (store : Store)
    (hnodup : (store.map Prod.fst).Nodup)
    (hvne : ∀ kv ∈ store, kv.2 ≠ [])
    (hcan : ∀ kv ∈ store, canonicalValue kv.2 = true)
    (hbr : ∀ kv ∈ store, (∀ c ∈ kv.1, c ≠ '{' ∧ c ≠ '}') ∧
      (∀ c ∈ kv.2, c ≠ '{' ∧ c ≠ '}')) :
    scanBraces (createBackup store) 0 0 0 =
      (0, (createBackup store).length) := by
  have hmap := backupEntries_eq_map store hnodup hvne
  have hmid : ∀ c ∈ stringifyMems (backupEntries store),
      c ≠ '{' ∧ c ≠ '}' := by
    rw [hmap]
    intro c hc
    rcases mem_stringifyMems _ c hc with ⟨m, hm, hor⟩ | hsep
    · obtain ⟨kv, hkv, hkveq⟩ := List.mem_map.mp hm
      rcases hor with hk | hvm
      · exact escStr_not_brace kv.1 (hbr kv hkv).1 c
          (by rw [← hkveq] at hk; exact hk)
      · exact stringify_parsedOrRaw_not_brace kv.2 (hbr kv hkv).2
          (hcan kv hkv) c (by rw [← hkveq] at hvm; exact hvm)
    · rcases hsep with h | h <;> (subst h; exact ⟨by decide, by decide⟩)
  have hshape : createBackup store =
      '{' :: (stringifyMems (backupEntries store) ++ ['}']) := rfl
  rw [hshape]
  have h1 : scanBraces
      ('{' :: (stringifyMems (backupEntries store) ++ ['}'])) 0 0 0 =
      scanBraces (stringifyMems (backupEntries store) ++ ['}']) 1 1 0 := by
    rw [scanBraces, if_pos rfl]
    norm_num
  rw [h1, scanBraces_append _ _ 1 1 0,
    scanBraces_no_brace (stringifyMems (backupEntries store)) 1 1 0 hmid]
  have h2 : scanBraces ['}'] 1
      (1 + (stringifyMems (backupEntries store)).length) 0 =
      (0, 1 + (stringifyMems (backupEntries store)).length + 1) := by
    rw [scanBraces, if_neg (by decide), if_pos rfl, if_pos (by decide),
      scanBraces]
    norm_num
  rw [h2]
  show ((0 : Int), 1 + (stringifyMems (backupEntries store)).length + 1) =
    ((0 : Int), ('{' :: (stringifyMems (backupEntries store) ++ ['}'])).length)
  have hg : (1 : Nat) + (stringifyMems (backupEntries store)).length + 1 =
      ('{' :: (stringifyMems (backupEntries store) ++ ['}'])).length := by
    simp only [List.length_cons, List.length_append, List.length_nil]
    omega
  rw [hg]

/-- C2 amended: the round trip `restoreFromBackup(createBackup())` restores
the key-space exactly for every nonempty store with distinct keys, none of
them `data`, whose values are nonempty and canonical (either not JSON at
all, or parsing to a non-null, non-string value that re-serializes to the
same text) and whose keys and values contain no brace characters (braces
inside values would defeat the end-locating brace scan, which does not
understand string literals). -/
theorem c2_roundtrip_amended (store : Store)
    (hne : store ≠ [])
    (hnodup : (store.map Prod.fst).Nodup)
    (hdata : ∀ kv ∈ store, kv.1 ≠ strL "data")
    (hvne : ∀ kv ∈ store, kv.2 ≠ [])
    (hcan : ∀ kv ∈ store, canonicalValue kv.2 = true)
    (hbr : ∀ kv ∈ store, (∀ c ∈ kv.1, c ≠ '{' ∧ c ≠ '}') ∧
      (∀ c ∈ kv.2, c ≠ '{' ∧ c ≠ '}')) :
    restoreFromBackup store (createBackup store) = (store, .ok true) := by
  have hscan : scanBraces (createBackup store) 0 0 0 =
      (0, (createBackup store).length) :=
    scanBraces_createBackup store hnodup hvne hcan hbr
  have hparse : jsonParse (createBackup store) =
      some (.obj (backupEntries store)) :=
    jsonParse_createBackup store hnodup hvne
  have hmap : backupEntries store = backupMap store :=
    backupEntries_eq_map store hnodup hvne
  obtain ⟨s0, rest, hsr⟩ : ∃ s0 rest, store = s0 :: rest := by
    cases store with
    | nil => exact absurd rfl hne
    | cons a l => exact ⟨a, l, rfl⟩
  obtain ⟨m, ms, hmm⟩ : ∃ m ms, backupMap store = m :: ms := by
    rw [hsr]
    exact ⟨_, _, rfl⟩
  have hcb : createBackup store = jsStringifyVal (.obj (m :: ms)) := by
    unfold createBackup
    rw [hmap, hmm]
  obtain ⟨t, ht⟩ := stringify_obj_shape m ms
  have hcb2 : createBackup store = ('{' :: '"' :: t) ++ ['}'] := hcb.trans ht
  have hkeys : (backupMap store).map Prod.fst = store.map Prod.fst := by
    unfold backupMap
    rw [List.map_map]
    rfl
  have happly := restore_object_trailing t [] (backupMap store) store
    (by rw [← hcb2]; exact hscan)
    (by intro c hc; exact absurd hc (List.not_mem_nil c))
    (by rw [← hcb2, hparse, hmap])
    (lookupKV_none _ _ (by
      intro kv hkv
      unfold backupMap at hkv
      obtain ⟨kv0, hkv0, hkveq⟩ := List.mem_map.mp hkv
      rw [← hkveq]
      exact hdata kv0 hkv0))
    (by rw [hmm]; exact List.cons_ne_nil _ _)
    (by rw [hkeys]; exact hnodup)
    (by
      intro kv hkv
      unfold backupMap at hkv
      obtain ⟨kv0, hkv0, hkveq⟩ := List.mem_map.mp hkv
      rw [← hkveq]
      have hc := hcan kv0 hkv0
      unfold canonicalValue at hc
      unfold parsedOrRaw
      cases hj : jsonParse kv0.2 with
      | none => rfl
      | some j =>
        rw [hj] at hc
        simp only [Bool.and_eq_true] at hc
        simpa using hc.1.1)
  rw [List.append_nil] at happly
  rw [restoredPairs_backupMap store hcan] at happly
  rw [hcb2]
  exact happly

/-- Witness for C2's amended statement on a concrete three-key store with a
boolean value, an array value and a raw (non-JSON) string value. -/
theorem c2_roundtrip_amended_witness :
    restoreFromBackup
      [(strL "k1", strL "true"), (strL "k2", strL "[1,2]"),
       (strL "k3", strL "hello")]
      (createBackup
        [(strL "k1", strL "true"), (strL "k2", strL "[1,2]"),
         (strL "k3", strL "hello")]) =
      ([(strL "k1", strL "true"), (strL "k2", strL "[1,2]"),
        (strL "k3", strL "hello")], .ok true) :=
  c2_roundtrip_amended _ (by simp) (by decide) (by decide) (by decide)
    (by decide) (by decide)
